import Mathlib

/-!
Verification of the AiResearcher core pipeline (src/core/llm.py, src/core/arxiv.py,
src/core/research.py) against its natural-language specification.

Modelling conventions (shallow embedding of the Python source):
* Python JSON values are modelled by `JValue`; numbers are modelled by rationals
  (Python ints are exact; Python floats are binary rationals — genuinely
  floating-point-dependent behaviour is out of scope of this embedding).
* Python dicts are modelled as insertion-ordered association lists with
  Python's insert/overwrite semantics (`dset`, `pyInsert`).
* Fallible Python code (code that can raise) is modelled with `Option`/`Except`;
  a `none` result of a function modelling a Python block means the block raised.
* External collaborators (the Gemini endpoint, the arXiv HTTP endpoint) are
  modelled as oracle parameters; everything computed by repository code
  (string manipulation, JSON extraction and repair, per-insight validation
  logic, fallback generation, conversation-log construction) is embedded.
-/

set_option maxHeartbeats 1000000

namespace AiResearcher

/-- JSON values as produced by Python's `json.loads` / consumed by `json.dumps`.
Objects are insertion-ordered association lists (Python dicts). -/
inductive JValue : Type
  | null : JValue
  | bool : Bool → JValue
  | num : ℚ → JValue
  | str : String → JValue
  | arr : List JValue → JValue
  | obj : List (String × JValue) → JValue

namespace JValue

mutual

/-- Structural size of a JSON value (used for strong induction). -/
def jsize : JValue → ℕ
  | .null => 1
  | .bool _ => 1
  | .num _ => 1
  | .str _ => 1
  | .arr l => 1 + jsizeL l
  | .obj l => 1 + jsizeO l

/-- Structural size of a list of JSON values. -/
def jsizeL : List JValue → ℕ
  | [] => 0
  | v :: vs => 1 + jsize v + jsizeL vs

/-- Structural size of a list of JSON object members. -/
def jsizeO : List (String × JValue) → ℕ
  | [] => 0
  | (_, v) :: vs => 1 + jsize v + jsizeO vs

end

end JValue

/-! ## Python dict model -/

/-- `d.get(k)`: first binding of `k` in the ordered association list. -/
def dget (d : List (String × JValue)) (k : String) : Option JValue :=
  match d.find? (fun p => p.1 = k) with
  | some p => some p.2
  | none => none

/-- `d.get(k, default)`. -/
def dgetD (d : List (String × JValue)) (k : String) (v : JValue) : JValue :=
  (dget d k).getD v

/-- `d[k] = v`: overwrite in place if the key exists (position preserved),
otherwise append at the end — Python dict assignment semantics. -/
def dset (d : List (String × JValue)) (k : String) (v : JValue) :
    List (String × JValue) :=
  if d.any (fun p => p.1 = k) then
    d.map (fun p => if p.1 = k then (k, v) else p)
  else
    d ++ [(k, v)]

/-! ## Python truthiness and comparison helpers -/

/-- Python truthiness of a JSON value. -/
def pyTruthy : JValue → Bool
  | .null => false
  | .bool b => b
  | .num q => q ≠ 0
  | .str s => s ≠ ""
  | .arr l => !l.isEmpty
  | .obj l => !l.isEmpty

/-- Numeric view of a Python value for comparisons: Python treats `bool`
as the integers 0/1; non-numeric values have no numeric view. -/
def pyNumView : JValue → Option ℚ
  | .num q => some q
  | .bool b => some (if b then 1 else 0)
  | _ => none

/-- Python `x >= q` for `q` a number; `none` models a `TypeError`. -/
def pyGE (x : JValue) (q : ℚ) : Option Bool :=
  (pyNumView x).map (fun n => decide (q ≤ n))

/-- Python `x > y` as used by `max(..., key=...)` over score values
(`none` models a `TypeError` on incomparable values). Strings compare
lexicographically by code point, numbers and bools numerically. -/
def pyGT (x y : JValue) : Option Bool :=
  match pyNumView x, pyNumView y with
  | some a, some b => some (decide (b < a))
  | _, _ =>
    match x, y with
    | .str a, .str b => some (decide (b < a))
    | _, _ => none

/-! ## String helpers (Python semantics) -/

/-- JSON whitespace as skipped by Python's `json` scanner: space, tab,
newline, carriage return. -/
def isJsonWs (c : Char) : Bool :=
  c.toNat = 32 || c.toNat = 9 || c.toNat = 10 || c.toNat = 13

/-- ASCII whitespace as stripped by Python's `str.strip()` and matched by
`\s` in its regexes (the source only ever handles ASCII around JSON
payloads). -/
def isPyWs (c : Char) : Bool :=
  c.toNat = 32 || (9 ≤ c.toNat && c.toNat ≤ 13)

/-- `str.strip()` on a character list. -/
def pyStripChars (l : List Char) : List Char :=
  ((l.dropWhile isPyWs).reverse.dropWhile isPyWs).reverse

/-- `str.strip()`. -/
def pyStrip (s : String) : String :=
  String.mk (pyStripChars s.toList)

/-- `str.split()` with no argument: split on whitespace runs, no empties
(fuel-structured for computability; the fuel never runs out). -/
def pySplitF : ℕ → List Char → List (List Char)
  | 0, _ => []
  | _ + 1, [] => []
  | fuel + 1, c :: rest =>
    if isPyWs c then pySplitF fuel rest
    else
      (c :: rest.takeWhile (fun d => !isPyWs d)) ::
        pySplitF fuel (rest.dropWhile (fun d => !isPyWs d))

/-- `str.split()` with no argument. -/
def pySplitChars (l : List Char) : List (List Char) :=
  pySplitF (l.length + 1) l

/-- `str.split()`. -/
def pySplit (s : String) : List String :=
  (pySplitChars s.toList).map String.mk

/-- `str.lower()` (per-character; the source only lowercases search text). -/
def pyLower (s : String) : String :=
  String.mk (s.toList.map Char.toLower)

/-- Python `s[:n]` (slicing by code point). -/
def pyTake (s : String) (n : ℕ) : String :=
  String.mk (s.toList.take n)

/-- `str.startswith(p)`. -/
def pyStartsWith (s p : String) : Bool :=
  p.toList.isPrefixOf s.toList

/-! ## Decimal digits -/

/-- The ASCII digit character for `n % 10`. -/
def digitCh (n : ℕ) : Char := Char.ofNat (48 + n % 10)

/-- Decimal digit characters, fuel-structured. -/
def natCharsF : ℕ → ℕ → List Char
  | 0, _ => []
  | fuel + 1, n =>
    if n < 10 then [digitCh n] else natCharsF fuel (n / 10) ++ [digitCh (n % 10)]

/-- Decimal digit characters of a natural number (no leading zeros;
`0` prints as "0"). -/
def natChars (n : ℕ) : List Char := natCharsF (n + 1) n

theorem natCharsF_irrel :
    ∀ f1 f2 n, n < f1 → n < f2 → natCharsF f1 n = natCharsF f2 n := by
  intro f1
  induction f1 with
  | zero => omega
  | succ f1 ih =>
    intro f2 n h1 h2
    match f2, h2 with
    | f2 + 1, h2 =>
      rw [natCharsF, natCharsF]
      by_cases h10 : n < 10
      · simp [h10]
      · simp only [h10, if_false]
        rw [ih f2 (n / 10) (by omega) (by omega)]

/-- One-step unfolding of `natChars`. -/
theorem natChars_unfold (n : ℕ) :
    natChars n = if n < 10 then [digitCh n] else natChars (n / 10) ++ [digitCh (n % 10)] := by
  rw [natChars, natCharsF]
  by_cases h10 : n < 10
  · simp [h10]
  · simp only [h10, if_false]
    rw [natCharsF_irrel n (n / 10 + 1) (n / 10) (by omega) (by omega)]
    rfl

/-- Decimal digit characters of an integer. -/
def intChars (n : ℤ) : List Char :=
  if n < 0 then '-' :: natChars n.natAbs else natChars n.toNat

/-- `isDigit` for the JSON grammar. -/
def isDig (c : Char) : Bool := 48 ≤ c.toNat && c.toNat ≤ 57

/-- Numeric value of a list of digit characters (most significant first). -/
def digitsVal (l : List Char) : ℕ :=
  l.foldl (fun acc c => 10 * acc + (c.toNat - 48)) 0

/-- Lowercase hex digit for `n < 16`. -/
def hexCh (n : ℕ) : Char :=
  if n < 10 then Char.ofNat (48 + n) else Char.ofNat (87 + n)

/-- Four lowercase hex digits of `n < 0x10000`, as in Python's
`json.dumps` `\uXXXX` escapes. -/
def hex4 (n : ℕ) : List Char :=
  [hexCh (n / 4096 % 16), hexCh (n / 256 % 16), hexCh (n / 16 % 16), hexCh (n % 16)]

/-- Value of one hex digit character (upper or lower case accepted, as in
Python's json scanner). -/
def hexVal (c : Char) : Option ℕ :=
  if 48 ≤ c.toNat && c.toNat ≤ 57 then some (c.toNat - 48)
  else if 97 ≤ c.toNat && c.toNat ≤ 102 then some (c.toNat - 87)
  else if 65 ≤ c.toNat && c.toNat ≤ 70 then some (c.toNat - 55)
  else none

/-- Multiplicity, fuel-structured. -/
def multPF (p : ℕ) : ℕ → ℕ → ℕ
  | 0, _ => 0
  | fuel + 1, n =>
    if 2 ≤ p ∧ 0 < n ∧ n % p = 0 then 1 + multPF p fuel (n / p) else 0

/-- Multiplicity of `p` in `n` (how many times `p ≥ 2` divides `n ≥ 1`). -/
def multP (p n : ℕ) : ℕ := multPF p (n + 1) n

theorem multPF_irrel (p : ℕ) :
    ∀ f1 f2 n, n < f1 → n < f2 → multPF p f1 n = multPF p f2 n := by
  intro f1
  induction f1 with
  | zero => omega
  | succ f1 ih =>
    intro f2 n h1 h2
    match f2, h2 with
    | f2 + 1, h2 =>
      rw [multPF, multPF]
      by_cases hc : 2 ≤ p ∧ 0 < n ∧ n % p = 0
      · have hd : n / p < n := Nat.div_lt_self hc.2.1 (by omega)
        simp only [hc, if_true]
        rw [ih f2 (n / p) (by omega) (by omega)]
      · simp [hc]

/-- One-step unfolding of `multP`. -/
theorem multP_unfold (p n : ℕ) :
    multP p n = if 2 ≤ p ∧ 0 < n ∧ n % p = 0 then 1 + multP p (n / p) else 0 := by
  rw [multP, multPF]
  by_cases hc : 2 ≤ p ∧ 0 < n ∧ n % p = 0
  · have hd : n / p < n := Nat.div_lt_self hc.2.1 (by omega)
    simp only [hc, if_true]
    rw [multPF_irrel p n (n / p + 1) (n / p) (by omega) (by omega)]
    rfl
  · simp [hc]

/-! ## `json.dumps` (default options: `ensure_ascii=True`, separators
`", "` and `": "`), modelling the standard serialization used by the spec's
round-trip law.  Numbers: Python ints print exactly; Python floats are binary
rationals and print as finite decimals, modelled here by printing rationals
whose denominator is of the form 2^a·5^b as their exact finite decimal. -/

/-- Escape one character as Python's `json.dumps` does with
`ensure_ascii=True`. -/
def escChar (c : Char) : List Char :=
  if c = '"' then ['\\', '"']
  else if c = '\\' then ['\\', '\\']
  else if c = '\n' then ['\\', 'n']
  else if c = '\r' then ['\\', 'r']
  else if c = '\t' then ['\\', 't']
  else if c.toNat = 8 then ['\\', 'b']
  else if c.toNat = 12 then ['\\', 'f']
  else if c.toNat < 32 then '\\' :: 'u' :: hex4 c.toNat
  else if c.toNat < 127 then [c]
  else if c.toNat < 65536 then '\\' :: 'u' :: hex4 c.toNat
  else
    '\\' :: 'u' :: hex4 (55296 + (c.toNat - 65536) / 1024)
      ++ '\\' :: 'u' :: hex4 (56320 + (c.toNat - 65536) % 1024)

/-- Serialize a string, quotes included. -/
def dumpStr (s : String) : List Char :=
  '"' :: s.toList.foldr (fun c acc => escChar c ++ acc) ['"']

/-- Decimal exponent needed to clear a denominator of the form 2^a·5^b. -/
def decExp (d : ℕ) : ℕ := max (multP 2 d) (multP 5 d)

/-- Serialize a non-negative rational with denominator 2^a·5^b, `den ≠ 1`,
as its finite decimal expansion (integer part, '.', fractional digits). -/
def dumpDec (q : ℚ) : List Char :=
  let k := decExp q.den
  let m := (q * (10 : ℚ) ^ k).num.toNat
  let ip := m / 10 ^ k
  let fr := m % 10 ^ k
  let ds := natChars fr
  natChars ip ++ '.' :: (List.replicate (k - ds.length) '0' ++ ds)

/-- Serialize a number.  Integers print exactly; finite-decimal rationals
print as decimals.  (Rationals outside both classes do not arise from any
Python value and print as "0".) -/
def dumpNum (q : ℚ) : List Char :=
  if q.den = 1 then intChars q.num
  else if q.den = 2 ^ multP 2 q.den * 5 ^ multP 5 q.den then
    if q < 0 then '-' :: dumpDec (-q) else dumpDec q
  else ['0']

mutual

/-- `json.dumps` with default options, producing a character list. -/
def dumpChars : JValue → List Char
  | .null => ['n', 'u', 'l', 'l']
  | .bool b => if b then ['t', 'r', 'u', 'e'] else ['f', 'a', 'l', 's', 'e']
  | .num q => dumpNum q
  | .str s => dumpStr s
  | .arr [] => ['[', ']']
  | .arr (v :: vs) => '[' :: (dumpChars v ++ dumpArrTail vs) ++ [']']
  | .obj [] => ['{', '}']
  | .obj (m :: ms) => '{' :: (dumpMember m ++ dumpObjTail ms) ++ ['}']

/-- Remaining array elements, each preceded by `", "`. -/
def dumpArrTail : List JValue → List Char
  | [] => []
  | v :: vs => ',' :: ' ' :: (dumpChars v ++ dumpArrTail vs)

/-- One object member: `"key": value`. -/
def dumpMember : String × JValue → List Char
  | (k, v) => dumpStr k ++ ':' :: ' ' :: dumpChars v

/-- Remaining object members, each preceded by `", "`. -/
def dumpObjTail : List (String × JValue) → List Char
  | [] => []
  | m :: ms => ',' :: ' ' :: (dumpMember m ++ dumpObjTail ms)

end

/-- `json.dumps(v)` with default options. -/
def dumps (v : JValue) : String := String.mk (dumpChars v)

/-! ## `json.loads` (Python's strict JSON scanner).  Deviations, which do not
affect any claim: exponent number literals, the non-standard `NaN/Infinity`
literals, and lone-surrogate `\u` escapes (strings Lean cannot represent)
are rejected rather than accepted. -/

/-- Skip JSON whitespace. -/
def skipWs (l : List Char) : List Char := l.dropWhile isJsonWs

/-- Short escapes accepted after a backslash in a JSON string. -/
def escMap : Char → Option Char
  | '"' => some '"'
  | '\\' => some '\\'
  | '/' => some '/'
  | 'b' => some (Char.ofNat 8)
  | 'f' => some (Char.ofNat 12)
  | 'n' => some '\n'
  | 'r' => some '\r'
  | 't' => some '\t'
  | _ => none

/-- Decode four hex digit characters into a code unit. -/
def hexVal4 (a b c2 d : Char) : Option ℕ :=
  match hexVal a, hexVal b, hexVal c2, hexVal d with
  | some ha, some hb, some hc, some hd => some (4096 * ha + 256 * hb + 16 * hc + hd)
  | _, _, _, _ => none

/-- Combine a high surrogate `n` with a decoded low surrogate `n2`. -/
def uEscLow (k : List Char → Option (List Char × List Char)) (n n2 : ℕ)
    (r4 : List Char) : Option (List Char × List Char) :=
  if 56320 ≤ n2 ∧ n2 ≤ 57343 then
    (k r4).map (fun p =>
      (Char.ofNat (65536 + (n - 55296) * 1024 + (n2 - 56320)) :: p.1, p.2))
  else none

/-- After a high surrogate `n`, expect a second `\uXXXX` low surrogate. -/
def uEscPair (k : List Char → Option (List Char × List Char)) (n : ℕ) :
    List Char → Option (List Char × List Char)
  | e1 :: e2 :: a2 :: b2 :: c3 :: d2 :: r4 =>
    if e1 = '\\' ∧ e2 = 'u' then
      (match hexVal4 a2 b2 c3 d2 with
       | some n2 => uEscLow k n n2 r4
       | none => none)
    else none
  | _ => none

/-- Dispatch on the decoded code unit `n` of a `\u` escape. -/
def uEsc4 (k : List Char → Option (List Char × List Char)) (n : ℕ)
    (r3 : List Char) : Option (List Char × List Char) :=
  if 55296 ≤ n ∧ n ≤ 56319 then uEscPair k n r3
  else if 56320 ≤ n ∧ n ≤ 57343 then none
  else (k r3).map (fun p => (Char.ofNat n :: p.1, p.2))

/-- Handle a `\u` escape: four hex digits, with the scanner's surrogate-pair
combination (a lone surrogate is rejected — Python would keep a lone
surrogate, a string Lean cannot represent).  `k` continues the scan. -/
def uEsc (k : List Char → Option (List Char × List Char)) :
    List Char → Option (List Char × List Char)
  | a :: b :: c2 :: d :: r3 =>
    (match hexVal4 a b c2 d with
     | some n => uEsc4 k n r3
     | none => none)
  | _ => none

/-- Parse the body of a JSON string (after the opening quote) up to and
including the closing quote, fuel-structured; strict mode rejects raw
control characters. -/
def strBodyF : ℕ → List Char → Option (List Char × List Char)
  | 0, _ => none
  | _ + 1, [] => none
  | fuel + 1, c :: rest =>
    if c = '"' then some ([], rest)
    else if c = '\\' then
      match rest with
      | [] => none
      | e :: r2 =>
        if e = 'u' then uEsc (strBodyF fuel) r2
        else
          match escMap e with
          | some c3 => (strBodyF fuel r2).map (fun p => (c3 :: p.1, p.2))
          | none => none
    else if c.toNat < 32 then none
    else (strBodyF fuel rest).map (fun p => (c :: p.1, p.2))

/-- Parse a JSON string body. -/
def strBody (cs : List Char) : Option (List Char × List Char) :=
  strBodyF (cs.length + 1) cs

/-- Negate when the sign flag is set. -/
def applySign (sg : Bool) (v : ℚ) : ℚ := if sg then -v else v

/-- Parse the unsigned part of a JSON number literal (integer part per the
JSON grammar — `0` or a nonzero-led digit run — and an optional
fraction). -/
def parseNumCore (sg : Bool) (cs1 : List Char) : Option (ℚ × List Char) :=
  match cs1 with
  | c :: r =>
    if isDig c then
      let ds := if c = '0' then [c] else c :: r.takeWhile isDig
      let r2 := if c = '0' then r else r.dropWhile isDig
      let ip : ℚ := (digitsVal ds : ℚ)
      if r2.head? = some '.' then
        let r3 := r2.tail
        let fds := r3.takeWhile isDig
        if fds.isEmpty then none
        else
          some (applySign sg (ip + (digitsVal fds : ℚ) / (10 : ℚ) ^ fds.length),
            r3.dropWhile isDig)
      else some (applySign sg ip, r2)
    else none
  | [] => none

/-- Parse a JSON number literal (optional minus sign, then the core). -/
def parseNum (cs : List Char) : Option (ℚ × List Char) :=
  let signed := decide (cs.head? = some '-')
  parseNumCore signed (if signed then cs.tail else cs)

/-- Python dict construction from parsed members: first occurrence keeps its
position, a repeated key overwrites the stored value. -/
def assembleDict (ms : List (String × JValue)) : List (String × JValue) :=
  ms.foldl (fun d m => dset d m.1 m.2) []

mutual

/-- Parse one JSON value (no leading whitespace), fuel-bounded. -/
def jparseV : ℕ → List Char → Option (JValue × List Char)
  | 0, _ => none
  | fuel + 1, cs =>
    if cs.take 4 = ['n', 'u', 'l', 'l'] then some (.null, cs.drop 4)
    else if cs.take 4 = ['t', 'r', 'u', 'e'] then some (.bool true, cs.drop 4)
    else if cs.take 5 = ['f', 'a', 'l', 's', 'e'] then some (.bool false, cs.drop 5)
    else if cs.head? = some '"' then
      (strBody cs.tail).map (fun p => (.str (String.mk p.1), p.2))
    else if cs.head? = some '[' then
      (let r := skipWs cs.tail
       if r.head? = some ']' then some (.arr [], r.tail)
       else (jparseElems fuel r).map (fun p => (.arr p.1, p.2)))
    else if cs.head? = some '{' then
      (let r := skipWs cs.tail
       if r.head? = some '}' then some (.obj [], r.tail)
       else (jparseMembers fuel r).map (fun p => (.obj (assembleDict p.1), p.2)))
    else (parseNum cs).map (fun p => (.num p.1, p.2))

/-- Parse the elements of a non-empty JSON array, consuming the closing `]`. -/
def jparseElems : ℕ → List Char → Option (List JValue × List Char)
  | 0, _ => none
  | fuel + 1, cs =>
    (jparseV fuel cs).bind (fun p =>
      let r1 := skipWs p.2
      if r1.head? = some ',' then
        (jparseElems fuel (skipWs r1.tail)).map (fun q => (p.1 :: q.1, q.2))
      else if r1.head? = some ']' then some ([p.1], r1.tail)
      else none)

/-- Parse the members of a non-empty JSON object, consuming the closing `}`. -/
def jparseMembers : ℕ → List Char → Option (List (String × JValue) × List Char)
  | 0, _ => none
  | fuel + 1, cs =>
    if cs.head? = some '"' then
      (strBody cs.tail).bind (fun kp =>
        let r2 := skipWs kp.2
        if r2.head? = some ':' then
          (jparseV fuel (skipWs r2.tail)).bind (fun p =>
            let r5 := skipWs p.2
            if r5.head? = some ',' then
              (jparseMembers fuel (skipWs r5.tail)).map
                (fun q => ((String.mk kp.1, p.1) :: q.1, q.2))
            else if r5.head? = some '}' then
              some ([(String.mk kp.1, p.1)], r5.tail)
            else none)
        else none)
    else none

end

/-- `json.loads(s)`: parse the whole string, allowing surrounding
whitespace. -/
def json_loads (s : String) : Option JValue :=
  let cs := skipWs s.toList
  match jparseV (cs.length + 1) cs with
  | some (v, rest) => if (skipWs rest).isEmpty then some v else none
  | none => none

/-! ## `LLM._clean_json` (src/core/llm.py lines 167-182): the four `re.sub`
passes and the control-character filter, in source order. -/

/-- `re.sub(r',\s*C', 'C', s)`, fuel-structured. -/
def subCommaCloseF (close : Char) : ℕ → List Char → List Char
  | 0, l => l
  | _ + 1, [] => []
  | fuel + 1, c :: rest =>
    if c = ',' then
      match rest.drop (rest.takeWhile isPyWs).length with
      | d :: r3 =>
        if d = close then close :: subCommaCloseF close fuel r3
        else ',' :: subCommaCloseF close fuel rest
      | [] => ',' :: subCommaCloseF close fuel rest
    else c :: subCommaCloseF close fuel rest

/-- `re.sub(r',\s*C', 'C', s)` for a closing character `C` (the trailing
comma passes).  Scans left to right; at a comma, greedily consumes
whitespace and checks for the closer. -/
def subCommaClose (close : Char) (l : List Char) : List Char :=
  subCommaCloseF close (l.length + 1) l

/-- `re.sub(r'//.*?\n', '\n', s)`, fuel-structured. -/
def subLineCommentsF : ℕ → List Char → List Char
  | 0, l => l
  | _ + 1, [] => []
  | fuel + 1, c :: rest =>
    if c = '/' ∧ rest.head? = some '/' then
      (if rest.any (fun d => d = '\n') then
        '\n' :: subLineCommentsF fuel (rest.dropWhile (fun d => d != '\n')).tail
      else c :: subLineCommentsF fuel rest)
    else c :: subLineCommentsF fuel rest

/-- `re.sub(r'//.*?\n', '\n', s)`: replace `//` up to and including the next
newline by a newline ('.' does not cross newlines; no match without one). -/
def subLineComments (l : List Char) : List Char :=
  subLineCommentsF (l.length + 1) l

/-- Drop up to and past the first `*/`, if any. -/
def dropToCloseCmt : List Char → Option (List Char)
  | [] => none
  | c :: rest =>
    match rest with
    | d :: r2 => if c = '*' ∧ d = '/' then some r2 else dropToCloseCmt rest
    | [] => none

theorem dropToCloseCmt_le :
    ∀ (l r : List Char), dropToCloseCmt l = some r → r.length ≤ l.length := by
  intro l
  induction l with
  | nil => simp [dropToCloseCmt]
  | cons c rest ih =>
    intro r h
    match rest, h with
    | [], h => simp [dropToCloseCmt] at h
    | d :: r2, h =>
      simp only [dropToCloseCmt] at h
      by_cases hc : c = '*' ∧ d = '/'
      · rw [if_pos hc] at h
        injection h with h
        subst h
        simp
        omega
      · rw [if_neg hc] at h
        have h3 := ih r h
        simp at h3 ⊢
        omega

/-- `re.sub(r'/\*.*?\*/', '', s, flags=re.DOTALL)`, fuel-structured. -/
def subBlockCommentsF : ℕ → List Char → List Char
  | 0, l => l
  | _ + 1, [] => []
  | fuel + 1, c :: rest =>
    if c = '/' ∧ rest.head? = some '*' then
      (match dropToCloseCmt rest.tail with
       | some after => subBlockCommentsF fuel after
       | none => c :: subBlockCommentsF fuel rest)
    else c :: subBlockCommentsF fuel rest

/-- `re.sub(r'/\*.*?\*/', '', s, flags=re.DOTALL)`: delete lazy block
comments. -/
def subBlockComments (l : List Char) : List Char :=
  subBlockCommentsF (l.length + 1) l

/-- Keep only characters with code point ≥ 32, plus `\n`, `\r`, `\t`. -/
def filterCtl (l : List Char) : List Char :=
  l.filter (fun c => 32 ≤ c.toNat || c = '\n' || c = '\r' || c = '\t')

/-- `LLM._clean_json`: the four substitution passes then the filter, in
source order. -/
def cleanChars (l : List Char) : List Char :=
  filterCtl (subBlockComments (subLineComments (subCommaClose ']' (subCommaClose '}' l))))

/-- `LLM._clean_json` on strings. -/
def clean_json (s : String) : String := String.mk (cleanChars s.toList)

/-! ## `LLM.extract_json` (src/core/llm.py lines 92-165). -/

/-- Does the continuation `\s*` + three backticks match here?  (Greedy `\s*`
needs no backtracking: a backtick is not whitespace.) -/
def cbContOk (cs : List Char) : Bool :=
  match cs.dropWhile isPyWs with
  | c1 :: c2 :: c3 :: _ => c1 = '`' && c2 = '`' && c3 = '`'
  | _ => false

/-- Lazy group scan for `\[.*?\]` / `\{.*?\}` inside the fenced-block
pattern: expand the lazy body one character at a time, accepting the first
closer whose continuation (`\s*` + backticks) matches. -/
def cbLazyScan (close : Char) (acc : List Char) : List Char → Option (List Char)
  | [] => none
  | c :: rest =>
    if c = close ∧ cbContOk rest then some acc.reverse
    else cbLazyScan close (c :: acc) rest

/-- Try the fenced-block body at a position right after three backticks:
optional `json` tag (greedy, with backtracking), `\s*`, then a lazily
matched bracket or brace group.  Returns `match.group(1)`. -/
def cbTryBody (cs : List Char) : Option (List Char) :=
  let inner := fun (body : List Char) =>
    match body.dropWhile isPyWs with
    | '[' :: r => (cbLazyScan ']' [] r).map (fun g => '[' :: g ++ [']'])
    | '{' :: r => (cbLazyScan '}' [] r).map (fun g => '{' :: g ++ ['}'])
    | _ => none
  match cs with
  | 'j' :: 's' :: 'o' :: 'n' :: r =>
    (match inner r with
     | some g => some g
     | none => inner cs)
  | _ => inner cs

/-- `re.search` for the fenced-block pattern: leftmost position wins. -/
def cbSearch : List Char → Option (List Char)
  | [] => none
  | c :: rest =>
    match c :: rest with
    | '`' :: '`' :: '`' :: after =>
      (match cbTryBody after with
       | some g => some g
       | none => cbSearch rest)
    | _ => cbSearch rest

/-- The fenced-code-block attempt (llm.py lines 106-114): find the pattern,
strip and clean the captured group, and parse it; any failure falls
through. -/
def codeBlockAttempt (t : String) : Option JValue :=
  match cbSearch t.toList with
  | some g => json_loads (clean_json (String.mk (pyStripChars g)))
  | none => none

/-- `re.search(r'(\[[\s\S]*\])', text)` (and the `{`/`}` variant): the match,
if any, runs from the first opener to the last closer after it (greedy
`[\s\S]*`, leftmost start). -/
def firstSpan (openc closec : Char) (cs : List Char) : Option (List Char) :=
  match cs.dropWhile (fun c => c != openc) with
  | [] => none
  | _ :: tail =>
    match tail.reverse.dropWhile (fun c => c != closec) with
    | [] => none
    | revPart => some (openc :: revPart.reverse)

/-- The source's bracket-depth loop (llm.py lines 123-132 / 147-156):
`end_pos` after scanning the cleaned string, 0 if the count never
returns to zero. -/
def bracketEnd (openc closec : Char) : List Char → ℤ → ℕ → ℕ
  | [], _, _ => 0
  | c :: rest, cnt, idx =>
    if c = openc then bracketEnd openc closec rest (cnt + 1) (idx + 1)
    else if c = closec then
      (if cnt - 1 = 0 then idx + 1 else bracketEnd openc closec rest (cnt - 1) (idx + 1))
    else bracketEnd openc closec rest cnt (idx + 1)

/-- The array fallback (llm.py lines 116-138): take the greedy span from the
first `[` to the last `]`, strip, clean, truncate at the depth-matched
closer of the cleaned string, and parse. -/
def arrayAttempt (t : String) : Option JValue :=
  match firstSpan '[' ']' t.toList with
  | none => none
  | some g =>
    let cl := cleanChars (pyStripChars g)
    let ep := bracketEnd '[' ']' cl 0 0
    json_loads (String.mk (if ep > 0 then cl.take ep else cl))

/-- The object fallback (llm.py lines 140-162), identical with braces. -/
def objectAttempt (t : String) : Option JValue :=
  match firstSpan '{' '}' t.toList with
  | none => none
  | some g =>
    let cl := cleanChars (pyStripChars g)
    let ep := bracketEnd '{' '}' cl 0 0
    json_loads (String.mk (if ep > 0 then cl.take ep else cl))

/-- `LLM.extract_json` (llm.py lines 92-165): empty / `"Error:"` guard, then
direct parse of the stripped text, then the fenced-block, array and object
fallbacks in order; `none` when every attempt fails. -/
def extract_json (text : String) : Option JValue :=
  if text = "" || pyStartsWith text "Error:" then none
  else
    let t := pyStrip text
    match json_loads t with
    | some v => some v
    | none =>
      match codeBlockAttempt t with
      | some v => some v
      | none =>
        match arrayAttempt t with
        | some v => some v
        | none => objectAttempt t

/-! ## Round-trip development: `json_loads (dumps v) = some v`. -/

theorem toNat_ofNat_valid (n : ℕ) (h : n < 55296 ∨ 57343 < n ∧ n < 1114112) :
    (Char.ofNat n).toNat = n := by
  rw [Char.ofNat, dif_pos h]
  unfold Char.ofNatAux Char.toNat
  simp [UInt32.toNat, BitVec.toNat_ofNatLt]

theorem char_valid_ranges (c : Char) :
    c.toNat < 55296 ∨ (57344 ≤ c.toNat ∧ c.toNat < 1114112) := by
  have h := c.valid
  unfold Nat.isValidChar UInt32.isValidChar at h
  unfold Char.toNat
  rcases h with h | h
  · exact Or.inl h
  · exact Or.inr ⟨by omega, h.2⟩

theorem digitCh_toNat (n : ℕ) : (digitCh n).toNat = 48 + n % 10 := by
  unfold digitCh
  exact toNat_ofNat_valid _ (Or.inl (by omega))

theorem isDig_digitCh (n : ℕ) : isDig (digitCh n) = true := by
  simp [isDig, digitCh_toNat]
  omega

theorem digitCh_ne_zeroCh (n : ℕ) (h1 : 1 ≤ n) (h2 : n ≤ 9) : digitCh n ≠ '0' := by
  intro h
  have := congrArg Char.toNat h
  rw [digitCh_toNat] at this
  simp at this
  omega

theorem natChars_ne_nil (n : ℕ) : natChars n ≠ [] := by
  rw [natChars_unfold]
  split <;> simp

theorem natChars_all_dig (n : ℕ) : (natChars n).all isDig = true := by
  induction n using Nat.strong_induction_on with
  | _ n ih =>
    rw [natChars_unfold]
    split
    · simp [isDig_digitCh]
    · rename_i h
      simp only [List.all_append, Bool.and_eq_true]
      constructor
      · exact ih (n / 10) (Nat.div_lt_self (by omega) (by omega))
      · simp [isDig_digitCh]

theorem natChars_pos_head (n : ℕ) (hn : 1 ≤ n) :
    ∃ c t, natChars n = c :: t ∧ c ≠ '0' ∧ isDig c = true := by
  induction n using Nat.strong_induction_on with
  | _ n ih =>
    rw [natChars_unfold]
    split
    · rename_i h
      exact ⟨digitCh n, [], rfl, digitCh_ne_zeroCh n hn (by omega), isDig_digitCh n⟩
    · rename_i h
      obtain ⟨c, t, hct, hc0, hcd⟩ :=
        ih (n / 10) (Nat.div_lt_self (by omega) (by omega))
          (Nat.one_le_div_iff (by omega) |>.mpr (by omega))
      exact ⟨c, t ++ [digitCh (n % 10)], by rw [hct]; simp, hc0, hcd⟩

theorem digitsVal_append (l1 l2 : List Char) :
    digitsVal (l1 ++ l2) =
      l2.foldl (fun acc c => 10 * acc + (c.toNat - 48)) (digitsVal l1) := by
  simp [digitsVal, List.foldl_append]

theorem digitsVal_natChars (n : ℕ) : digitsVal (natChars n) = n := by
  induction n using Nat.strong_induction_on with
  | _ n ih =>
    rw [natChars_unfold]
    split
    · rename_i h
      simp [digitsVal, digitCh_toNat]
      omega
    · rename_i h
      rw [digitsVal_append, ih (n / 10) (Nat.div_lt_self (by omega) (by omega))]
      simp [digitCh_toNat]
      omega

theorem natChars_length_le (k n : ℕ) (h : n < 10 ^ k) (hk : 1 ≤ k) :
    (natChars n).length ≤ k := by
  induction k generalizing n with
  | zero => omega
  | succ k ih =>
    rw [natChars_unfold]
    split
    · simp
    · rename_i h10
      have hk1 : 1 ≤ k := by
        by_contra hcon
        have : k = 0 := by omega
        subst this
        simp at h
        omega
      have := ih (n / 10) (by
        have : n < 10 * 10 ^ k := by rw [pow_succ] at h; omega
        omega) hk1
      simp
      omega

/-- No further number characters follow (stops the maximal-munch digit
scan). -/
def numStop (rest : List Char) : Prop :=
  ∀ c, rest.head? = some c → isDig c = false ∧ c ≠ '.'

theorem numStop_facts (rest : List Char) (h : numStop rest) :
    rest.head? ≠ some '.' ∧ rest.takeWhile isDig = [] ∧ rest.dropWhile isDig = rest := by
  cases rest with
  | nil => simp
  | cons c t =>
    have hc := h c rfl
    refine ⟨?_, ?_, ?_⟩
    · simp
      exact hc.2
    · simp [List.takeWhile_cons, hc.1]
    · simp [List.dropWhile_cons, hc.1]

/-- Digit-run splitting: `takeWhile`/`dropWhile` over an all-digit prefix
followed by a non-digit (or nothing). -/
theorem digitRun (l rest : List Char) (hl : l.all isDig = true)
    (hrest : ∀ c, rest.head? = some c → isDig c = false) :
    (l ++ rest).takeWhile isDig = l ∧ (l ++ rest).dropWhile isDig = rest := by
  induction l with
  | nil =>
    simp only [List.nil_append]
    cases rest with
    | nil => simp
    | cons c t =>
      have := hrest c rfl
      simp [List.takeWhile_cons, List.dropWhile_cons, this]
  | cons c t ih =>
    simp only [List.all_cons, Bool.and_eq_true] at hl
    have := ih hl.2
    simp [List.takeWhile_cons, List.dropWhile_cons, hl.1, this.1, this.2]

theorem parseNum_cons_minus (l : List Char) :
    parseNum ('-' :: l) = parseNumCore true l := by
  rw [parseNum]
  simp

theorem parseNum_not_minus (l : List Char) (h : l.head? ≠ some '-') :
    parseNum l = parseNumCore false l := by
  rw [parseNum]
  simp [h]

theorem parseNumCore_natChars (sg : Bool) (n : ℕ) (rest : List Char)
    (h : numStop rest) :
    parseNumCore sg (natChars n ++ rest) = some (applySign sg (n : ℚ), rest) := by
  obtain ⟨hdot, htk, hdp⟩ := numStop_facts rest h
  by_cases h0 : n = 0
  · subst h0
    have hshape : natChars 0 = ['0'] := by rw [natChars_unfold]; decide
    rw [hshape]
    simp only [List.cons_append, List.nil_append, parseNumCore]
    have hd0 : isDig '0' = true := by decide
    rw [if_pos hd0]
    simp only [reduceIte]
    rw [if_neg hdot]
    have hdv : digitsVal ['0'] = 0 := by decide
    rw [hdv]
  · have hn : 1 ≤ n := by omega
    obtain ⟨c, t, hshape, hc0, hcd⟩ := natChars_pos_head n hn
    have hall := natChars_all_dig n
    rw [hshape] at hall
    simp only [List.all_cons, Bool.and_eq_true] at hall
    have hrun := digitRun t rest hall.2 (fun c hc => (h c hc).1)
    rw [hshape]
    simp only [List.cons_append, parseNumCore]
    rw [if_pos hcd, if_neg hc0, if_neg hc0]
    rw [hrun.1, hrun.2]
    rw [if_neg hdot]
    have hval : digitsVal (c :: t) = n := by
      rw [← hshape]
      exact digitsVal_natChars n
    rw [hval]

theorem natChars_head_not_minus (n : ℕ) (rest : List Char) :
    (natChars n ++ rest).head? ≠ some '-' := by
  obtain ⟨c, t', hshape⟩ : ∃ c t', natChars n = c :: t' := by
    cases hnc : natChars n with
    | nil => exact absurd hnc (natChars_ne_nil _)
    | cons c t' => exact ⟨c, t', rfl⟩
  have hall := natChars_all_dig n
  rw [hshape] at hall
  simp only [List.all_cons, Bool.and_eq_true] at hall
  rw [hshape]
  simp only [List.cons_append, List.head?_cons]
  intro he
  injection he with he
  subst he
  have := hall.1
  simp [isDig] at this

theorem parseNum_intChars (m : ℤ) (rest : List Char) (h : numStop rest) :
    parseNum (intChars m ++ rest) = some ((m : ℚ), rest) := by
  rw [intChars]
  by_cases hm : m < 0
  · rw [if_pos hm]
    simp only [List.cons_append]
    rw [parseNum_cons_minus]
    rw [parseNumCore_natChars true m.natAbs rest h]
    have hv : applySign true ((m.natAbs : ℕ) : ℚ) = (m : ℚ) := by
      have h1 : (m.natAbs : ℤ) = -m := by omega
      have h2 : ((m.natAbs : ℕ) : ℚ) = (((m.natAbs : ℤ)) : ℚ) := by
        rw [Int.cast_natCast]
      simp only [applySign, if_true]
      rw [h2, h1]
      push_cast
      ring
    rw [hv]
  · rw [if_neg hm]
    rw [parseNum_not_minus _ (natChars_head_not_minus m.toNat rest)]
    rw [parseNumCore_natChars false m.toNat rest h]
    have hv : applySign false ((m.toNat : ℕ) : ℚ) = (m : ℚ) := by
      simp only [applySign, if_false, Bool.false_eq_true]
      have : ((m.toNat : ℕ) : ℤ) = m := Int.toNat_of_nonneg (by omega)
      exact_mod_cast congrArg (fun z : ℤ => (z : ℚ)) this
    rw [hv]

theorem digitsVal_cons_zero (l : List Char) : digitsVal ('0' :: l) = digitsVal l := by
  have h48 : (10 : ℕ) * 0 + ('0'.toNat - 48) = 0 := by decide
  simp only [digitsVal, List.foldl_cons, h48]

theorem digitsVal_zeros (j : ℕ) (l : List Char) :
    digitsVal (List.replicate j '0' ++ l) = digitsVal l := by
  induction j with
  | zero => simp
  | succ j ih =>
    rw [List.replicate_succ, List.cons_append, digitsVal_cons_zero, ih]

theorem replicate_zero_all_dig (j : ℕ) : (List.replicate j '0').all isDig = true := by
  rw [List.all_eq_true]
  intro x hx
  rw [List.eq_of_mem_replicate hx]
  decide

/-- Parse digits, a dot, and fraction digits. -/
theorem parseNumCore_dec (sg : Bool) (ipn : ℕ) (fds rest : List Char)
    (hfd : fds.all isDig = true) (hfne : fds ≠ []) (h : numStop rest) :
    parseNumCore sg (natChars ipn ++ '.' :: (fds ++ rest)) =
      some (applySign sg ((ipn : ℚ) + (digitsVal fds : ℚ) / (10 : ℚ) ^ fds.length),
        rest) := by
  have hfrun := digitRun fds rest hfd (fun c hc => (h c hc).1)
  have hfe : fds.isEmpty = false := by
    cases fds with
    | nil => exact absurd rfl hfne
    | cons a b => rfl
  by_cases h0 : ipn = 0
  · subst h0
    have hshape : natChars 0 = ['0'] := by rw [natChars_unfold]; decide
    rw [hshape]
    simp only [List.cons_append, List.nil_append, parseNumCore]
    have hd0 : isDig '0' = true := by decide
    rw [if_pos hd0]
    simp only [reduceIte, List.head?_cons, List.tail_cons, if_true]
    rw [hfrun.1, hfrun.2, hfe]
    have hdv : digitsVal ['0'] = 0 := by decide
    rw [hdv]
    simp
  · have hn : 1 ≤ ipn := by omega
    obtain ⟨c, t, hshape, hc0, hcd⟩ := natChars_pos_head ipn hn
    have hall := natChars_all_dig ipn
    rw [hshape] at hall
    simp only [List.all_cons, Bool.and_eq_true] at hall
    have hdot : isDig '.' = false := by decide
    have hrun := digitRun t ('.' :: (fds ++ rest)) hall.2
      (fun c hc => by injection hc with hc; rw [← hc]; exact hdot)
    rw [hshape]
    simp only [List.cons_append, parseNumCore]
    rw [if_pos hcd, if_neg hc0, if_neg hc0, hrun.1, hrun.2]
    simp only [List.head?_cons, List.tail_cons, reduceIte, if_true]
    rw [hfrun.1, hfrun.2, hfe]
    have hval : digitsVal (c :: t) = ipn := by
      rw [← hshape]
      exact digitsVal_natChars ipn
    rw [hval]
    simp

/-- A rational has a finite decimal expansion exactly when its reduced
denominator is of the form 2^a·5^b; every Python int or float satisfies
this. -/
def NumOk (q : ℚ) : Prop := q.den = 2 ^ multP 2 q.den * 5 ^ multP 5 q.den

theorem parseNumCore_dumpDec (sg : Bool) (q : ℚ) (hq : 0 < q)
    (hden : q.den ≠ 1) (hok : NumOk q) (rest : List Char) (h : numStop rest) :
    parseNumCore sg (dumpDec q ++ rest) = some (applySign sg q, rest) := by
  have hk1 : 1 ≤ decExp q.den := by
    rw [decExp]
    by_contra hcon
    have h2 : multP 2 q.den = 0 := by omega
    have h5 : multP 5 q.den = 0 := by omega
    rw [NumOk, h2, h5] at hok
    simp at hok
    exact hden hok
  have hdvd : q.den ∣ 10 ^ decExp q.den := by
    have h10 : (10 : ℕ) ^ decExp q.den = 2 ^ decExp q.den * 5 ^ decExp q.den := by
      rw [show (10 : ℕ) = 2 * 5 by norm_num, mul_pow]
    rw [h10]
    conv_lhs => rw [hok]
    exact mul_dvd_mul (pow_dvd_pow 2 (le_max_left _ _)) (pow_dvd_pow 5 (le_max_right _ _))
  obtain ⟨c, hc⟩ := hdvd
  have hcpos : 0 < c := by
    rcases Nat.eq_zero_or_pos c with h0 | h0
    · rw [h0, mul_zero] at hc
      exact absurd hc (by positivity)
    · exact h0
  have hqint : q * (10 : ℚ) ^ decExp q.den = ((q.num * c : ℤ) : ℚ) := by
    have h1 : ((10 : ℚ) ^ decExp q.den) = ((10 ^ decExp q.den : ℕ) : ℚ) := by
      push_cast
      ring
    rw [h1, hc]
    push_cast
    calc q * ((q.den : ℚ) * (c : ℚ)) = q * (q.den : ℚ) * (c : ℚ) := by ring
    _ = (q.num : ℚ) * (c : ℚ) := by rw [Rat.mul_den_eq_num]
  have hnum : (q * (10 : ℚ) ^ decExp q.den).num = q.num * c := by
    rw [hqint]
    exact Rat.num_intCast _
  have hnumpos : 0 < q.num * c := by
    have := Rat.num_pos.mpr hq
    positivity
  have hmQ : (((q * (10 : ℚ) ^ decExp q.den).num.toNat : ℕ) : ℚ)
      = q * (10 : ℚ) ^ decExp q.den := by
    rw [hnum, hqint]
    have : (((q.num * c).toNat : ℕ) : ℤ) = q.num * c := Int.toNat_of_nonneg (by omega)
    exact_mod_cast congrArg (fun z : ℤ => (z : ℚ)) this
  rw [dumpDec]
  set k := decExp q.den with hkdef
  set m := (q * (10 : ℚ) ^ k).num.toNat with hmdef
  set ip := m / 10 ^ k with hipdef
  set fr := m % 10 ^ k with hfrdef
  set ds := natChars fr with hdsdef
  have hfr_lt : fr < 10 ^ k := Nat.mod_lt _ (by positivity)
  have hds_le : ds.length ≤ k := natChars_length_le k fr hfr_lt hk1
  have hpadd_dig : (List.replicate (k - ds.length) '0' ++ ds).all isDig = true := by
    rw [List.all_append]
    rw [replicate_zero_all_dig, natChars_all_dig]
    rfl
  have hpadd_len : (List.replicate (k - ds.length) '0' ++ ds).length = k := by
    simp [List.length_append, List.length_replicate]
    omega
  have hpadd_ne : List.replicate (k - ds.length) '0' ++ ds ≠ [] := by
    intro he
    have := congrArg List.length he
    rw [hpadd_len] at this
    simp at this
    omega
  have happ : (natChars ip ++ '.' :: (List.replicate (k - ds.length) '0' ++ ds)) ++ rest
      = natChars ip ++ '.' :: ((List.replicate (k - ds.length) '0' ++ ds) ++ rest) := by
    simp
  rw [happ]
  rw [parseNumCore_dec sg ip _ rest hpadd_dig hpadd_ne h]
  have hdvpad : digitsVal (List.replicate (k - ds.length) '0' ++ ds) = fr := by
    rw [← List.append_nil ds, digitsVal_zeros]
    simp only [List.append_nil]
    exact digitsVal_natChars fr
  rw [hdvpad, hpadd_len]
  have hval : (ip : ℚ) + (fr : ℚ) / (10 : ℚ) ^ k = q := by
    have hm_split : ip * 10 ^ k + fr = m := by
      rw [hipdef, hfrdef, Nat.mul_comm]
      exact Nat.div_add_mod m (10 ^ k)
    have h10pos : (0 : ℚ) < (10 : ℚ) ^ k := by positivity
    field_simp
    have hcast : ((ip * 10 ^ k + fr : ℕ) : ℚ) = ((m : ℕ) : ℚ) := by
      rw [hm_split]
    push_cast at hcast
    rw [hmQ] at hcast
    linarith [hcast]
  rw [hval]

theorem dumpDec_head_not_minus (q : ℚ) (rest : List Char) :
    (dumpDec q ++ rest).head? ≠ some '-' := by
  rw [dumpDec]
  simp only [List.append_assoc, List.cons_append]
  exact natChars_head_not_minus _ _

theorem parseNum_dumpNum (q : ℚ) (hok : NumOk q) (rest : List Char)
    (h : numStop rest) :
    parseNum (dumpNum q ++ rest) = some (q, rest) := by
  rw [dumpNum]
  by_cases hden : q.den = 1
  · rw [if_pos hden]
    rw [parseNum_intChars q.num rest h]
    rw [(Rat.den_eq_one_iff q).mp hden]
  · rw [if_neg hden, if_pos (show q.den = 2 ^ multP 2 q.den * 5 ^ multP 5 q.den from hok)]
    have hq0 : q ≠ 0 := fun he => hden (by rw [he]; rfl)
    by_cases hneg : q < 0
    · rw [if_pos hneg]
      simp only [List.cons_append]
      rw [parseNum_cons_minus]
      have hnq : 0 < -q := by linarith
      have hnden : (-q).den ≠ 1 := hden
      have hnok : NumOk (-q) := hok
      rw [parseNumCore_dumpDec true (-q) hnq hnden hnok rest h]
      simp [applySign]
    · rw [if_neg hneg]
      have hpos : 0 < q := lt_of_le_of_ne (not_lt.mp hneg) (Ne.symm hq0)
      rw [parseNum_not_minus _ (dumpDec_head_not_minus q rest)]
      rw [parseNumCore_dumpDec false q hpos hden hok rest h]
      simp [applySign]

/-- The serialized body of a string: escaped characters then the closing
quote. -/
def escBody (l : List Char) : List Char :=
  l.foldr (fun c acc => escChar c ++ acc) ['"']

theorem dumpStr_eq (s : String) : dumpStr s = '"' :: escBody s.toList := rfl

theorem hexVal_hexCh (n : ℕ) (h : n < 16) : hexVal (hexCh n) = some n := by
  interval_cases n <;> decide

theorem hex_recombine (n : ℕ) (h : n < 65536) :
    4096 * (n / 4096 % 16) + 256 * (n / 256 % 16) + 16 * (n / 16 % 16) + n % 16
      = n := by
  have e1 : n / 16 / 16 = n / 256 := by
    rw [Nat.div_div_eq_div_mul]
  have e2 : n / 256 / 16 = n / 4096 := by
    rw [Nat.div_div_eq_div_mul]
  omega

theorem hexVal4_hex4 (n : ℕ) (h : n < 65536) :
    hexVal4 (hexCh (n / 4096 % 16)) (hexCh (n / 256 % 16))
      (hexCh (n / 16 % 16)) (hexCh (n % 16)) = some n := by
  rw [hexVal4]
  rw [hexVal_hexCh _ (by omega), hexVal_hexCh _ (by omega),
    hexVal_hexCh _ (by omega), hexVal_hexCh _ (by omega)]
  show some (4096 * (n / 4096 % 16) + 256 * (n / 256 % 16)
    + 16 * (n / 16 % 16) + n % 16) = some n
  rw [hex_recombine n h]

theorem uEsc_bmp (k : List Char → Option (List Char × List Char)) (n : ℕ)
    (X : List Char) (hn : n < 65536)
    (hlo : ¬(55296 ≤ n ∧ n ≤ 56319)) (hhi : ¬(56320 ≤ n ∧ n ≤ 57343)) :
    uEsc k (hex4 n ++ X) = (k X).map (fun p => (Char.ofNat n :: p.1, p.2)) := by
  rw [hex4]
  simp only [List.cons_append, List.nil_append]
  rw [uEsc, hexVal4_hex4 n hn]
  show uEsc4 k n X = _
  rw [uEsc4, if_neg hlo, if_neg hhi]

theorem uEsc_pair (k : List Char → Option (List Char × List Char)) (n : ℕ)
    (X : List Char) (h1 : 65536 ≤ n) (h2 : n < 1114112) :
    uEsc k (hex4 (55296 + (n - 65536) / 1024)
        ++ ('\\' :: 'u' :: (hex4 (56320 + (n - 65536) % 1024) ++ X)))
      = (k X).map (fun p => (Char.ofNat n :: p.1, p.2)) := by
  have hdiv : (n - 65536) / 1024 < 1024 := by omega
  have hmod : (n - 65536) % 1024 < 1024 := by omega
  rw [hex4, hex4]
  simp only [List.cons_append, List.nil_append]
  rw [uEsc, hexVal4_hex4 _ (by omega)]
  show uEsc4 k (55296 + (n - 65536) / 1024) _ = _
  rw [uEsc4, if_pos (by omega :
    55296 ≤ 55296 + (n - 65536) / 1024 ∧ 55296 + (n - 65536) / 1024 ≤ 56319)]
  simp only [uEscPair]
  simp only [and_self, if_true]
  rw [hexVal4_hex4 _ (by omega)]
  show uEscLow k _ _ X = _
  rw [uEscLow, if_pos (by omega :
    56320 ≤ 56320 + (n - 65536) % 1024 ∧ 56320 + (n - 65536) % 1024 ≤ 57343)]
  have hcp : 65536 + (55296 + (n - 65536) / 1024 - 55296) * 1024
      + (56320 + (n - 65536) % 1024 - 56320) = n := by
    have := Nat.div_add_mod (n - 65536) 1024
    omega
  rw [hcp]

theorem strBodyF_escBody :
    ∀ (l : List Char) (fuel : ℕ) (rest : List Char), l.length < fuel →
      strBodyF fuel (escBody l ++ rest) = some (l, rest) := by
  intro l
  induction l with
  | nil =>
    intro fuel rest hf
    match fuel, hf with
    | f + 1, _ =>
      show strBodyF (f + 1) ('"' :: rest) = some ([], rest)
      simp [strBodyF]
  | cons c l ih =>
    intro fuel rest hf
    match fuel, hf with
    | f + 1, hf =>
      have hf' : l.length < f := by
        simp only [List.length_cons] at hf
        omega
      have hstep := ih f rest hf'
      have hassoc : escBody (c :: l) ++ rest = escChar c ++ (escBody l ++ rest) := by
        show (escChar c ++ escBody l) ++ rest = _
        rw [List.append_assoc]
      rw [hassoc, escChar]
      by_cases h1 : c = '"'
      · subst h1
        simp [strBodyF, escMap, hstep]
      rw [if_neg h1]
      by_cases h2 : c = '\\'
      · subst h2
        simp [strBodyF, escMap, hstep]
      rw [if_neg h2]
      by_cases h3 : c = '\n'
      · subst h3
        simp [strBodyF, escMap, hstep]
      rw [if_neg h3]
      by_cases h4 : c = '\r'
      · subst h4
        simp [strBodyF, escMap, hstep]
      rw [if_neg h4]
      by_cases h5 : c = '\t'
      · subst h5
        simp [strBodyF, escMap, hstep]
      rw [if_neg h5]
      by_cases h6 : c.toNat = 8
      · rw [if_pos h6]
        have hc : c = Char.ofNat 8 := by
          rw [← h6, Char.ofNat_toNat]
        simp [strBodyF, escMap, hstep, hc]
      rw [if_neg h6]
      by_cases h7 : c.toNat = 12
      · rw [if_pos h7]
        have hc : c = Char.ofNat 12 := by
          rw [← h7, Char.ofNat_toNat]
        simp [strBodyF, escMap, hstep, hc]
      rw [if_neg h7]
      by_cases h8 : c.toNat < 32
      · rw [if_pos h8]
        simp only [List.cons_append]
        simp only [strBodyF, reduceIte]
        rw [uEsc_bmp _ _ _ (by omega) (by omega) (by omega)]
        rw [hstep]
        simp [Char.ofNat_toNat]
      rw [if_neg h8]
      by_cases h9 : c.toNat < 127
      · rw [if_pos h9]
        simp only [List.cons_append, List.nil_append]
        simp only [strBodyF]
        rw [if_neg h1, if_neg h2, if_neg (by omega : ¬c.toNat < 32)]
        rw [hstep]
        rfl
      rw [if_neg h9]
      have hvalid := char_valid_ranges c
      by_cases h10 : c.toNat < 65536
      · rw [if_pos h10]
        simp only [List.cons_append]
        simp only [strBodyF, reduceIte]
        rw [uEsc_bmp _ _ _ (by omega) (by omega) (by omega)]
        rw [hstep]
        simp [Char.ofNat_toNat]
      · rw [if_neg h10]
        simp only [List.cons_append, List.append_assoc]
        simp only [strBodyF, reduceIte]
        rw [uEsc_pair _ c.toNat _ (by omega) (by omega)]
        rw [hstep]
        simp [Char.ofNat_toNat]

mutual

/-- Well-formed JSON values: numbers have finite decimal expansions (as every
Python int/float does) and object keys are distinct (as in every Python
dict). -/
def JWF : JValue → Prop
  | .null => True
  | .bool _ => True
  | .str _ => True
  | .num q => NumOk q
  | .arr l => JWFL l
  | .obj l => (l.map Prod.fst).Nodup ∧ JWFO l

/-- All elements well-formed. -/
def JWFL : List JValue → Prop
  | [] => True
  | v :: vs => JWF v ∧ JWFL vs

/-- All member values well-formed. -/
def JWFO : List (String × JValue) → Prop
  | [] => True
  | (_, v) :: ms => JWF v ∧ JWFO ms

end

theorem jsize_pos : ∀ v, 1 ≤ JValue.jsize v := by
  intro v
  cases v <;> simp [JValue.jsize]

/-- A serialized number starts with a minus sign or a digit. -/
theorem dumpNum_shape (q : ℚ) :
    ∃ c t, dumpNum q = c :: t ∧ (c = '-' ∨ isDig c = true) := by
  rw [dumpNum]
  by_cases h1 : q.den = 1
  · rw [if_pos h1, intChars]
    by_cases h2 : q.num < 0
    · rw [if_pos h2]
      exact ⟨'-', _, rfl, by tauto⟩
    · rw [if_neg h2]
      obtain ⟨c, t, hshape⟩ : ∃ c t, natChars q.num.toNat = c :: t := by
        cases hnc : natChars q.num.toNat with
        | nil => exact absurd hnc (natChars_ne_nil _)
        | cons c t => exact ⟨c, t, rfl⟩
      have hall := natChars_all_dig q.num.toNat
      rw [hshape] at hall
      simp only [List.all_cons, Bool.and_eq_true] at hall
      exact ⟨c, t, hshape, by tauto⟩
  · rw [if_neg h1]
    by_cases h2 : q.den = 2 ^ multP 2 q.den * 5 ^ multP 5 q.den
    · rw [if_pos h2]
      by_cases h3 : q < 0
      · rw [if_pos h3]
        exact ⟨'-', _, rfl, by tauto⟩
      · rw [if_neg h3, dumpDec]
        set m := (q * (10:ℚ) ^ decExp q.den).num.toNat with hm
        set pad := List.replicate
            (decExp q.den - (natChars (m % 10 ^ decExp q.den)).length) '0'
          ++ natChars (m % 10 ^ decExp q.den) with hpad
        obtain ⟨c, t, hshape⟩ : ∃ c t,
            natChars (m / 10 ^ decExp q.den) = c :: t := by
          cases hnc : natChars (m / 10 ^ decExp q.den) with
          | nil => exact absurd hnc (natChars_ne_nil _)
          | cons c t => exact ⟨c, t, rfl⟩
        have hall := natChars_all_dig (m / 10 ^ decExp q.den)
        rw [hshape] at hall
        simp only [List.all_cons, Bool.and_eq_true] at hall
        refine ⟨c, t ++ '.' :: pad, ?_, by tauto⟩
        rw [hshape]
        rfl
    · rw [if_neg h2]
      refine ⟨'0', [], rfl, ?_⟩
      right; decide

/-- Every serialized value starts with one of the known lead characters. -/
theorem dumpChars_shape (v : JValue) :
    ∃ c t, dumpChars v = c :: t ∧
      (c = 'n' ∨ c = 't' ∨ c = 'f' ∨ c = '"' ∨ c = '[' ∨ c = '{' ∨ c = '-'
        ∨ isDig c = true) := by
  cases v with
  | null => exact ⟨'n', _, rfl, by tauto⟩
  | bool b =>
    cases b with
    | true => exact ⟨'t', _, rfl, by tauto⟩
    | false => exact ⟨'f', _, rfl, by tauto⟩
  | str s => exact ⟨'"', _, rfl, by tauto⟩
  | arr l =>
    cases l with
    | nil => exact ⟨'[', _, rfl, by tauto⟩
    | cons x xs => exact ⟨'[', _, rfl, by tauto⟩
  | obj l =>
    cases l with
    | nil => exact ⟨'{', _, rfl, by tauto⟩
    | cons x xs => exact ⟨'{', _, rfl, by tauto⟩
  | num q =>
    obtain ⟨c, t, hsh, hc⟩ := dumpNum_shape q
    exact ⟨c, t, hsh, by tauto⟩

/-- Lead characters are not whitespace. -/
theorem lead_not_ws (c : Char)
    (h : c = 'n' ∨ c = 't' ∨ c = 'f' ∨ c = '"' ∨ c = '[' ∨ c = '{' ∨ c = '-'
      ∨ isDig c = true) :
    isJsonWs c = false ∧ isPyWs c = false := by
  rcases h with h | h | h | h | h | h | h | h
  · subst h; exact ⟨by decide, by decide⟩
  · subst h; exact ⟨by decide, by decide⟩
  · subst h; exact ⟨by decide, by decide⟩
  · subst h; exact ⟨by decide, by decide⟩
  · subst h; exact ⟨by decide, by decide⟩
  · subst h; exact ⟨by decide, by decide⟩
  · subst h; exact ⟨by decide, by decide⟩
  · have hb : 48 ≤ c.toNat ∧ c.toNat ≤ 57 := by
      simp only [isDig, Bool.and_eq_true, decide_eq_true_eq] at h
      exact h
    constructor
    · simp only [isJsonWs, Bool.or_eq_false_iff, decide_eq_false_iff_not]
      omega
    · simp only [isPyWs, Bool.or_eq_false_iff, Bool.and_eq_false_iff,
        decide_eq_false_iff_not]
      omega

theorem skipWs_cons_no (c : Char) (t : List Char) (h : isJsonWs c = false) :
    skipWs (c :: t) = c :: t := by
  simp [skipWs, List.dropWhile_cons, h]

theorem skipWs_cons_sp (t : List Char) : skipWs (' ' :: t) = skipWs t := by
  have h : isJsonWs ' ' = true := by decide
  simp [skipWs, List.dropWhile_cons, h]

theorem take_head_ne (c : Char) (X : List Char) (p : Char) (ps : List Char)
    (k : ℕ) (h : c ≠ p) : ¬((c :: X).take (k + 1) = p :: ps) := by
  intro he
  rw [List.take_succ_cons] at he
  injection he with h1 _
  exact h h1

theorem head_some_ne (c : Char) (X : List Char) (p : Char) (h : c ≠ p) :
    ¬((c :: X).head? = some p) := by
  intro he
  injection he with he
  exact h he

/-- A lead character cannot be a close bracket, close brace, comma, colon or
a lead letter of a different keyword. -/
theorem lead_ne (c : Char) (d : Char)
    (h : c = 'n' ∨ c = 't' ∨ c = 'f' ∨ c = '"' ∨ c = '[' ∨ c = '{' ∨ c = '-'
      ∨ isDig c = true)
    (hd : d = ']' ∨ d = '}' ∨ d = ',' ∨ d = ':') : c ≠ d := by
  rcases h with h | h | h | h | h | h | h | h <;>
    rcases hd with hd | hd | hd | hd <;>
      subst hd <;>
      first
        | (subst h; decide)
        | (intro he
           rw [he] at h
           exact absurd h (by decide))

theorem dset_append (d : List (String × JValue)) (k : String) (v : JValue)
    (h : ¬ k ∈ d.map Prod.fst) : dset d k v = d ++ [(k, v)] := by
  rw [dset, if_neg]
  intro hc
  rw [List.any_eq_true] at hc
  obtain ⟨p, hp, he⟩ := hc
  simp only [decide_eq_true_eq] at he
  exact h (he ▸ List.mem_map_of_mem Prod.fst hp)

theorem assembleDict_go (l : List (String × JValue)) :
    ∀ acc, (∀ p ∈ l, ¬ p.1 ∈ acc.map Prod.fst) → (l.map Prod.fst).Nodup →
      l.foldl (fun d m => dset d m.1 m.2) acc = acc ++ l := by
  induction l with
  | nil => intro acc _ _; simp
  | cons m l ih =>
    intro acc hdisj hnd
    obtain ⟨k, v⟩ := m
    simp only [List.foldl_cons]
    rw [dset_append acc k v (hdisj (k, v) (by simp))]
    rw [ih (acc ++ [(k, v)]) ?_ ?_]
    · simp
    · intro p hp
      simp only [List.map_append, List.mem_append]
      rintro (hin | hin)
      · exact hdisj p (List.mem_cons_of_mem _ hp) hin
      · simp only [List.map_cons, List.map_nil, List.mem_singleton] at hin
        simp only [List.map_cons, List.nodup_cons] at hnd
        exact hnd.1 (hin ▸ List.mem_map_of_mem Prod.fst hp)
    · simp only [List.map_cons, List.nodup_cons] at hnd
      exact hnd.2

/-- Python dict construction is the identity on duplicate-free member
lists. -/
theorem assembleDict_nodup (l : List (String × JValue))
    (h : (l.map Prod.fst).Nodup) : assembleDict l = l := by
  rw [assembleDict, assembleDict_go l [] (by simp) h]
  simp

theorem numStop_arrCont (vs : List JValue) (rest : List Char) :
    numStop (dumpArrTail vs ++ (']' :: rest)) := by
  cases vs with
  | nil =>
    simp only [dumpArrTail, List.nil_append]
    intro c hc
    injection hc with hc
    subst hc
    exact ⟨by decide, by decide⟩
  | cons v2 vs2 =>
    simp only [dumpArrTail, List.cons_append]
    intro c hc
    injection hc with hc
    subst hc
    exact ⟨by decide, by decide⟩

theorem numStop_objCont (ms : List (String × JValue)) (rest : List Char) :
    numStop (dumpObjTail ms ++ ('}' :: rest)) := by
  cases ms with
  | nil =>
    simp only [dumpObjTail, List.nil_append]
    intro c hc
    injection hc with hc
    subst hc
    exact ⟨by decide, by decide⟩
  | cons m2 ms2 =>
    simp only [dumpObjTail, List.cons_append]
    intro c hc
    injection hc with hc
    subst hc
    exact ⟨by decide, by decide⟩

/-- A number lead character is none of the other value lead characters. -/
theorem numLead_ne (c : Char) (h : c = '-' ∨ isDig c = true) (p : Char)
    (hp : p = 'n' ∨ p = 't' ∨ p = 'f' ∨ p = '"' ∨ p = '[' ∨ p = '{') :
    c ≠ p := by
  rcases h with h | h
  · subst h
    rcases hp with hp | hp | hp | hp | hp | hp <;> subst hp <;> decide
  · intro he
    rw [he] at h
    rcases hp with hp | hp | hp | hp | hp | hp <;> subst hp <;>
      exact absurd h (by decide)

/-- Round trip for the full string serialization. -/
theorem strBody_dumpStr (s : String) (rest : List Char) :
    strBody (escBody s.toList ++ rest) = some (s.toList, rest) := by
  rw [strBody]
  apply strBodyF_escBody
  have : s.toList.length ≤ (escBody s.toList).length := by
    induction s.toList with
    | nil => simp [escBody]
    | cons c t ih =>
      show t.length + 1 ≤ (escChar c ++ escBody t).length
      rw [List.length_append]
      have hc : 1 ≤ (escChar c).length := by
        rw [escChar]
        repeat' split
        all_goals simp
      omega
  simp only [List.length_append]
  omega


/-- The round-trip induction bundle: values, array element lists and object
member lists parse back from their serialization, for sizes up to `n`. -/
def RTP (n : ℕ) : Prop :=
  (∀ v fuel rest, JValue.jsize v ≤ n → JWF v → JValue.jsize v < fuel →
      numStop rest → jparseV fuel (dumpChars v ++ rest) = some (v, rest))
  ∧ (∀ v vs fuel rest, JValue.jsizeL (v :: vs) ≤ n → JWFL (v :: vs) →
      JValue.jsizeL (v :: vs) < fuel →
      jparseElems fuel (dumpChars v ++ (dumpArrTail vs ++ (']' :: rest)))
        = some (v :: vs, rest))
  ∧ (∀ k v ms fuel rest, JValue.jsizeO ((k, v) :: ms) ≤ n →
      JWFO ((k, v) :: ms) → JValue.jsizeO ((k, v) :: ms) < fuel →
      jparseMembers fuel
          (dumpStr k ++ (':' :: ' ' ::
            (dumpChars v ++ (dumpObjTail ms ++ ('}' :: rest)))))
        = some ((k, v) :: ms, rest))

theorem rtp_all : ∀ n, RTP n := by
  intro n
  induction n using Nat.strong_induction_on with
  | _ n ih =>
    by_cases hn0 : n = 0
    · subst hn0
      refine ⟨?_, ?_, ?_⟩
      · intro v fuel rest hsz _ _ _
        have := jsize_pos v
        omega
      · intro v vs fuel rest hsz _ _
        have := jsize_pos v
        simp only [JValue.jsizeL] at hsz
        omega
      · intro k v ms fuel rest hsz _ _
        have := jsize_pos v
        simp only [JValue.jsizeO] at hsz
        omega
    have ihn := ih (n - 1) (by omega)
    refine ⟨?_, ?_, ?_⟩
    · -- values
      intro v fuel rest hsz hwf hfuel hstop
      match fuel, hfuel with
      | fuel + 1, hfuel =>
        cases v with
        | null => rfl
        | bool b => cases b <;> rfl
        | str s =>
          show (strBody (escBody s.toList ++ rest)).map
              (fun p => (JValue.str (String.mk p.1), p.2)) = some (.str s, rest)
          rw [strBody_dumpStr]
          rfl
        | num q =>
          obtain ⟨c, t, hsh, hc⟩ := dumpNum_shape q
          have hg1 : ¬((dumpNum q ++ rest).take 4 = ['n', 'u', 'l', 'l']) := by
            rw [hsh]
            exact take_head_ne _ _ _ _ _ (numLead_ne c hc 'n' (by tauto))
          have hg2 : ¬((dumpNum q ++ rest).take 4 = ['t', 'r', 'u', 'e']) := by
            rw [hsh]
            exact take_head_ne _ _ _ _ _ (numLead_ne c hc 't' (by tauto))
          have hg3 : ¬((dumpNum q ++ rest).take 5 = ['f', 'a', 'l', 's', 'e']) := by
            rw [hsh]
            exact take_head_ne _ _ _ _ _ (numLead_ne c hc 'f' (by tauto))
          have hg4 : ¬((dumpNum q ++ rest).head? = some '"') := by
            rw [hsh]
            exact head_some_ne _ _ _ (numLead_ne c hc '"' (by tauto))
          have hg5 : ¬((dumpNum q ++ rest).head? = some '[') := by
            rw [hsh]
            exact head_some_ne _ _ _ (numLead_ne c hc '[' (by tauto))
          have hg6 : ¬((dumpNum q ++ rest).head? = some '{') := by
            rw [hsh]
            exact head_some_ne _ _ _ (numLead_ne c hc '{' (by tauto))
          show jparseV (fuel + 1) (dumpNum q ++ rest) = some (.num q, rest)
          simp only [jparseV]
          rw [if_neg hg1, if_neg hg2, if_neg hg3, if_neg hg4, if_neg hg5,
            if_neg hg6]
          rw [parseNum_dumpNum q hwf rest hstop]
          rfl
        | arr l =>
          cases l with
          | nil => rfl
          | cons v vs =>
            obtain ⟨c, t, hsh, hlead⟩ := dumpChars_shape v
            have hnws := (lead_not_ws c hlead).1
            have he : dumpChars (.arr (v :: vs)) ++ rest
                = '[' :: (dumpChars v ++ (dumpArrTail vs ++ (']' :: rest))) := by
              show ('[' :: (dumpChars v ++ dumpArrTail vs) ++ [']']) ++ rest = _
              simp [List.append_assoc]
            rw [he]
            simp only [jparseV]
            rw [if_neg (take_head_ne _ _ _ _ _ (by decide)),
              if_neg (take_head_ne _ _ _ _ _ (by decide)),
              if_neg (take_head_ne _ _ _ _ _ (by decide))]
            simp only [List.head?_cons, List.tail_cons, reduceIte]
            have hskip : skipWs (dumpChars v ++ (dumpArrTail vs ++ (']' :: rest)))
                = dumpChars v ++ (dumpArrTail vs ++ (']' :: rest)) := by
              rw [hsh, List.cons_append]
              exact skipWs_cons_no _ _ hnws
            rw [hskip]
            have hhd : ¬((dumpChars v
                ++ (dumpArrTail vs ++ (']' :: rest))).head? = some ']') := by
              rw [hsh, List.cons_append]
              exact head_some_ne _ _ _ (lead_ne c ']' hlead (by tauto))
            rw [if_neg hhd]
            have helems := (ihn.2.1) v vs fuel rest
              (by simp only [JValue.jsize] at hsz; omega)
              hwf
              (by simp only [JValue.jsize] at hfuel; omega)
            rw [helems]
            rfl
        | obj l =>
          cases l with
          | nil => rfl
          | cons m ms =>
            obtain ⟨k, v⟩ := m
            have he : dumpChars (.obj ((k, v) :: ms)) ++ rest
                = '{' :: (dumpStr k ++ (':' :: ' ' ::
                    (dumpChars v ++ (dumpObjTail ms ++ ('}' :: rest))))) := by
              show ('{' :: (dumpMember (k, v) ++ dumpObjTail ms) ++ ['}']) ++ rest = _
              show ('{' :: ((dumpStr k ++ ':' :: ' ' :: dumpChars v)
                ++ dumpObjTail ms) ++ ['}']) ++ rest = _
              simp [List.append_assoc]
            rw [he]
            simp only [jparseV]
            rw [if_neg (take_head_ne _ _ _ _ _ (by decide)),
              if_neg (take_head_ne _ _ _ _ _ (by decide)),
              if_neg (take_head_ne _ _ _ _ _ (by decide))]
            simp only [List.head?_cons, List.tail_cons, reduceIte]
            have hskip : skipWs (dumpStr k ++ (':' :: ' ' ::
                (dumpChars v ++ (dumpObjTail ms ++ ('}' :: rest)))))
                = dumpStr k ++ (':' :: ' ' ::
                    (dumpChars v ++ (dumpObjTail ms ++ ('}' :: rest)))) := by
              rw [dumpStr_eq, List.cons_append]
              exact skipWs_cons_no _ _ (by decide)
            rw [hskip]
            have hhd : ¬((dumpStr k ++ (':' :: ' ' ::
                (dumpChars v ++ (dumpObjTail ms ++ ('}' :: rest))))).head?
                  = some '}') := by
              rw [dumpStr_eq, List.cons_append]
              exact head_some_ne _ _ _ (by decide)
            rw [if_neg hhd]
            have hmems := (ihn.2.2) k v ms fuel rest
              (by simp only [JValue.jsize] at hsz; omega)
              hwf.2
              (by simp only [JValue.jsize] at hfuel; omega)
            rw [hmems]
            have hnd : (((k, v) :: ms).map Prod.fst).Nodup := hwf.1
            simp only [Option.map_some']
            rw [assembleDict_nodup _ hnd]
            rw [if_neg (show ¬((some '{' : Option Char) = some '"') by decide),
              if_neg (show ¬((some '{' : Option Char) = some '[') by decide)]
    · -- array element lists
      intro v vs fuel rest hsz hwf hfuel
      match fuel, hfuel with
      | fuel + 1, hfuel =>
        simp only [JValue.jsizeL] at hsz hfuel
        have hv := ihn.1 v fuel (dumpArrTail vs ++ (']' :: rest))
          (by have := jsize_pos v; omega)
          hwf.1
          (by omega)
          (numStop_arrCont vs rest)
        simp only [jparseElems]
        rw [hv]
        simp only [Option.some_bind]
        cases vs with
        | nil =>
          simp only [dumpArrTail, List.nil_append]
          rw [skipWs_cons_no _ _ (by decide)]
          simp only [List.head?_cons, List.tail_cons, reduceIte]
          rw [if_neg (show ¬((some ']' : Option Char) = some ',') by decide)]
        | cons v2 vs2 =>
          simp only [dumpArrTail, List.cons_append]
          rw [skipWs_cons_no _ _ (by decide)]
          simp only [List.head?_cons, List.tail_cons, reduceIte]
          rw [skipWs_cons_sp]
          obtain ⟨c, t, hsh, hlead⟩ := dumpChars_shape v2
          have hskip2 : skipWs (dumpChars v2
              ++ (dumpArrTail vs2 ++ (']' :: rest)))
              = dumpChars v2 ++ (dumpArrTail vs2 ++ (']' :: rest)) := by
            rw [hsh, List.cons_append]
            exact skipWs_cons_no _ _ (lead_not_ws c hlead).1
          rw [List.append_assoc, hskip2]
          have helems := (ihn.2.1) v2 vs2 fuel rest
            (by have := jsize_pos v; omega)
            hwf.2
            (by have := jsize_pos v; omega)
          rw [helems]
          rfl
    · -- object member lists
      intro k v ms fuel rest hsz hwf hfuel
      match fuel, hfuel with
      | fuel + 1, hfuel =>
        simp only [JValue.jsizeO] at hsz hfuel
        simp only [jparseMembers]
        rw [dumpStr_eq, List.cons_append]
        simp only [List.head?_cons, List.tail_cons, reduceIte]
        rw [strBody_dumpStr]
        simp only [Option.some_bind]
        rw [skipWs_cons_no _ _ (by decide)]
        simp only [List.head?_cons, List.tail_cons, reduceIte]
        rw [skipWs_cons_sp]
        obtain ⟨c, t, hsh, hlead⟩ := dumpChars_shape v
        have hskip : skipWs (dumpChars v ++ (dumpObjTail ms ++ ('}' :: rest)))
            = dumpChars v ++ (dumpObjTail ms ++ ('}' :: rest)) := by
          rw [hsh, List.cons_append]
          exact skipWs_cons_no _ _ (lead_not_ws c hlead).1
        rw [hskip]
        have hv := ihn.1 v fuel (dumpObjTail ms ++ ('}' :: rest))
          (by have := jsize_pos v; omega)
          hwf.1
          (by omega)
          (numStop_objCont ms rest)
        rw [hv]
        simp only [Option.some_bind]
        cases ms with
        | nil =>
          simp only [dumpObjTail, List.nil_append]
          rw [skipWs_cons_no _ _ (by decide)]
          simp only [List.head?_cons, List.tail_cons, reduceIte]
          rfl
        | cons m2 ms2 =>
          obtain ⟨k2, v2⟩ := m2
          simp only [dumpObjTail, List.cons_append]
          rw [skipWs_cons_no _ _ (by decide)]
          simp only [List.head?_cons, List.tail_cons, reduceIte]
          rw [skipWs_cons_sp]
          have he2 : dumpMember (k2, v2)
              ++ (dumpObjTail ms2 ++ ('}' :: rest))
              = dumpStr k2 ++ (':' :: ' ' ::
                  (dumpChars v2 ++ (dumpObjTail ms2 ++ ('}' :: rest)))) := by
            show (dumpStr k2 ++ ':' :: ' ' :: dumpChars v2) ++ _ = _
            simp [List.append_assoc]
          have hskip2 : skipWs (dumpMember (k2, v2)
              ++ (dumpObjTail ms2 ++ ('}' :: rest)))
              = dumpMember (k2, v2) ++ (dumpObjTail ms2 ++ ('}' :: rest)) := by
            rw [he2, dumpStr_eq, List.cons_append]
            exact skipWs_cons_no _ _ (by decide)
          rw [List.append_assoc, hskip2, he2]
          have hmems := (ihn.2.2) k2 v2 ms2 fuel rest
            (by have := jsize_pos v; omega)
            hwf.2
            (by have := jsize_pos v; omega)
          rw [hmems]
          rfl

/-! ## Size bound: a value's structural size is at most the length of its
serialization (so `length + 1` is always enough parsing fuel). -/

/-- Size-bound bundle for the strong induction. -/
def SizeLE (n : ℕ) : Prop :=
  (∀ v, JValue.jsize v ≤ n → JValue.jsize v ≤ (dumpChars v).length)
  ∧ (∀ vs, JValue.jsizeL vs ≤ n → JValue.jsizeL vs ≤ (dumpArrTail vs).length)
  ∧ (∀ ms, JValue.jsizeO ms ≤ n → JValue.jsizeO ms ≤ (dumpObjTail ms).length)

theorem sizeLE_all : ∀ n, SizeLE n := by
  intro n
  induction n using Nat.strong_induction_on with
  | _ n ih =>
    by_cases hn0 : n = 0
    · subst hn0
      refine ⟨?_, ?_, ?_⟩
      · intro v hsz; have := jsize_pos v; omega
      · intro vs hsz
        cases vs with
        | nil => simp [JValue.jsizeL, dumpArrTail]
        | cons v vs =>
          have := jsize_pos v
          simp only [JValue.jsizeL] at hsz
          omega
      · intro ms hsz
        cases ms with
        | nil => simp [JValue.jsizeO, dumpObjTail]
        | cons m ms =>
          obtain ⟨k, v⟩ := m
          have := jsize_pos v
          simp only [JValue.jsizeO] at hsz
          omega
    · have ihn := ih (n - 1) (by omega)
      refine ⟨?_, ?_, ?_⟩
      · intro v hsz
        cases v with
        | null => simp [JValue.jsize, dumpChars]
        | bool b => cases b <;> simp [JValue.jsize, dumpChars]
        | num q =>
          obtain ⟨c, t, hsh, _⟩ := dumpNum_shape q
          show JValue.jsize (.num q) ≤ (dumpNum q).length
          rw [hsh]
          simp [JValue.jsize]
        | str s =>
          show JValue.jsize (.str s) ≤ (dumpStr s).length
          rw [dumpStr]
          simp [JValue.jsize]
        | arr l =>
          cases l with
          | nil => simp [JValue.jsize, JValue.jsizeL, dumpChars]
          | cons v vs =>
            simp only [JValue.jsize, JValue.jsizeL] at hsz
            have h1 : JValue.jsize v ≤ (dumpChars v).length :=
              ihn.1 v (by omega)
            have h2 : JValue.jsizeL vs ≤ (dumpArrTail vs).length :=
              ihn.2.1 vs (by omega)
            show JValue.jsize (.arr (v :: vs)) ≤
              ('[' :: (dumpChars v ++ dumpArrTail vs) ++ [']']).length
            simp only [JValue.jsize, JValue.jsizeL, List.length_append,
              List.length_cons, List.length_nil] at h1 h2 ⊢
            omega
        | obj l =>
          cases l with
          | nil => simp [JValue.jsize, JValue.jsizeO, dumpChars]
          | cons m ms =>
            obtain ⟨k, v⟩ := m
            simp only [JValue.jsize, JValue.jsizeO] at hsz
            have h1 : JValue.jsize v ≤ (dumpChars v).length :=
              ihn.1 v (by omega)
            have h2 : JValue.jsizeO ms ≤ (dumpObjTail ms).length :=
              ihn.2.2 ms (by omega)
            have hm : (dumpMember (k, v)).length
                = (dumpStr k).length + 2 + (dumpChars v).length := by
              show (dumpStr k ++ ':' :: ' ' :: dumpChars v).length = _
              simp [List.length_append]
              omega
            show JValue.jsize (.obj ((k, v) :: ms)) ≤
              ('\x7b' :: (dumpMember (k, v) ++ dumpObjTail ms) ++ ['\x7d']).length
            simp only [JValue.jsize, JValue.jsizeO, List.length_append,
              List.length_cons, List.length_nil] at h1 h2 ⊢
            omega
      · intro vs hsz
        cases vs with
        | nil => simp [JValue.jsizeL, dumpArrTail]
        | cons v vs =>
          simp only [JValue.jsizeL] at hsz
          have h1 : JValue.jsize v ≤ (dumpChars v).length :=
            ihn.1 v (by omega)
          have h2 : JValue.jsizeL vs ≤ (dumpArrTail vs).length :=
            ihn.2.1 vs (by omega)
          show 1 + JValue.jsize v + JValue.jsizeL vs ≤
            (',' :: ' ' :: (dumpChars v ++ dumpArrTail vs)).length
          simp only [List.length_cons, List.length_append]
          omega
      · intro ms hsz
        cases ms with
        | nil => simp [JValue.jsizeO, dumpObjTail]
        | cons m ms =>
          obtain ⟨k, v⟩ := m
          simp only [JValue.jsizeO] at hsz
          have h1 : JValue.jsize v ≤ (dumpChars v).length :=
            ihn.1 v (by omega)
          have h2 : JValue.jsizeO ms ≤ (dumpObjTail ms).length :=
            ihn.2.2 ms (by omega)
          have hm : (dumpMember (k, v)).length
              = (dumpStr k).length + 2 + (dumpChars v).length := by
            show (dumpStr k ++ ':' :: ' ' :: dumpChars v).length = _
            simp [List.length_append]
            omega
          show 1 + JValue.jsize v + JValue.jsizeO ms ≤
            (',' :: ' ' :: (dumpMember (k, v) ++ dumpObjTail ms)).length
          simp only [List.length_cons, List.length_append]
          omega

theorem jsize_le_dump_length (v : JValue) :
    JValue.jsize v ≤ (dumpChars v).length :=
  (sizeLE_all (JValue.jsize v)).1 v le_rfl

/-! ## The serialization has no surrounding whitespace, so `strip` is the
identity on it and the direct parse in `extract_json` succeeds. -/

/-- Splitting a final element out of a nested append. -/
theorem append_last_shift (a : List Char) (d : Char) (b t : List Char)
    (c : Char) :
    a ++ d :: (b ++ (t ++ [c])) = (a ++ (d :: (b ++ t))) ++ [c] := by
  simp [List.append_assoc]

/-- `natChars` ends in a digit. -/
theorem natChars_last (n : ℕ) :
    ∃ t c, natChars n = t ++ [c] ∧ isDig c = true := by
  have hne := natChars_ne_nil n
  have hall := natChars_all_dig n
  refine ⟨(natChars n).dropLast, (natChars n).getLast hne,
    (List.dropLast_append_getLast hne).symm, ?_⟩
  have hmem := List.getLast_mem hne
  rw [List.all_eq_true] at hall
  exact hall _ hmem

/-- `dumpNum` ends in a digit. -/
theorem dumpNum_last (q : ℚ) :
    ∃ t c, dumpNum q = t ++ [c] ∧ isDig c = true := by
  have hdec : ∀ r : ℚ, ∃ t c, dumpDec r = t ++ [c] ∧ isDig c = true := by
    intro r
    obtain ⟨t, c, hsh, hc⟩ := natChars_last
      ((r * (10 : ℚ) ^ decExp r.den).num.toNat % 10 ^ decExp r.den)
    simp only [dumpDec]
    rw [hsh, append_last_shift]
    exact ⟨_, c, rfl, hc⟩
  rw [dumpNum]
  by_cases h1 : q.den = 1
  · rw [if_pos h1, intChars]
    by_cases h2 : q.num < 0
    · rw [if_pos h2]
      obtain ⟨t, c, hsh, hc⟩ := natChars_last q.num.natAbs
      exact ⟨'-' :: t, c, by rw [hsh]; rfl, hc⟩
    · rw [if_neg h2]
      exact natChars_last _
  · rw [if_neg h1]
    by_cases h2 : q.den = 2 ^ multP 2 q.den * 5 ^ multP 5 q.den
    · rw [if_pos h2]
      by_cases h3 : q < 0
      · rw [if_pos h3]
        obtain ⟨t, c, hsh, hc⟩ := hdec (-q)
        exact ⟨'-' :: t, c, by rw [hsh]; rfl, hc⟩
      · rw [if_neg h3]
        exact hdec q
    · rw [if_neg h2]
      exact ⟨[], '0', rfl, by decide⟩

/-- The escape fold underlying `dumpStr` ends in the closing quote. -/
theorem escFold_last (l : List Char) :
    ∃ t, l.foldr (fun c acc => escChar c ++ acc) ['"'] = t ++ ['"'] := by
  induction l with
  | nil => exact ⟨[], rfl⟩
  | cons c cs ih =>
    obtain ⟨t, ht⟩ := ih
    refine ⟨escChar c ++ t, ?_⟩
    simp only [List.foldr_cons, ht, List.append_assoc]

/-- Every serialized value ends in a non-whitespace character. -/
theorem dumpChars_last (v : JValue) :
    ∃ t c, dumpChars v = t ++ [c] ∧ isPyWs c = false := by
  cases v with
  | null => exact ⟨['n', 'u', 'l'], 'l', rfl, by decide⟩
  | bool b =>
    cases b with
    | true => exact ⟨['t', 'r', 'u'], 'e', rfl, by decide⟩
    | false => exact ⟨['f', 'a', 'l', 's'], 'e', rfl, by decide⟩
  | num q =>
    obtain ⟨t, c, hsh, hc⟩ := dumpNum_last q
    exact ⟨t, c, hsh, (lead_not_ws c (by tauto)).2⟩
  | str s =>
    obtain ⟨t, ht⟩ := escFold_last s.toList
    refine ⟨'"' :: t, '"', ?_, by decide⟩
    show '"' :: s.toList.foldr (fun c acc => escChar c ++ acc) ['"']
      = ('"' :: t) ++ ['"']
    rw [ht]
    rfl
  | arr l =>
    cases l with
    | nil => exact ⟨['['], ']', rfl, by decide⟩
    | cons v vs =>
      exact ⟨'[' :: (dumpChars v ++ dumpArrTail vs), ']', rfl, by decide⟩
  | obj l =>
    cases l with
    | nil => exact ⟨['\x7b'], '\x7d', rfl, by decide⟩
    | cons m ms =>
      exact ⟨'\x7b' :: (dumpMember m ++ dumpObjTail ms), '\x7d', rfl, by decide⟩

/-- `str.strip()` is the identity when neither end is whitespace. -/
theorem pyStripChars_id (l : List Char)
    (h1 : ∀ c, l.head? = some c → isPyWs c = false)
    (h2 : ∀ c, l.getLast? = some c → isPyWs c = false) :
    pyStripChars l = l := by
  rw [pyStripChars]
  have hd : l.dropWhile isPyWs = l := by
    cases l with
    | nil => rfl
    | cons c t => simp [List.dropWhile_cons, h1 c rfl]
  rw [hd]
  have hr : l.reverse.dropWhile isPyWs = l.reverse := by
    cases hrev : l.reverse with
    | nil => rfl
    | cons c t =>
      have hc : l.getLast? = some c := by
        rw [← List.head?_reverse, hrev]
        rfl
      simp [List.dropWhile_cons, h2 c hc]
  rw [hr, List.reverse_reverse]

/-- `strip` is the identity on a serialized value. -/
theorem pyStrip_dumps (v : JValue) : pyStrip (dumps v) = dumps v := by
  obtain ⟨c, t, hsh, hlead⟩ := dumpChars_shape v
  obtain ⟨t2, c2, hsh2, hc2⟩ := dumpChars_last v
  show String.mk (pyStripChars (dumpChars v)) = String.mk (dumpChars v)
  rw [pyStripChars_id]
  · intro d hd
    rw [hsh] at hd
    simp only [List.head?_cons, Option.some_inj] at hd
    rw [← hd]
    exact (lead_not_ws c hlead).2
  · intro d hd
    rw [hsh2, List.getLast?_concat] at hd
    simp only [Option.some_inj] at hd
    rw [← hd]
    exact hc2

/-- `json.loads` inverts `json.dumps` on well-formed values. -/
theorem json_loads_dumps (v : JValue) (h : JWF v) :
    json_loads (dumps v) = some v := by
  obtain ⟨c, t, hsh, hlead⟩ := dumpChars_shape v
  have hskip : skipWs (dumpChars v) = dumpChars v := by
    rw [hsh]
    exact skipWs_cons_no _ _ (lead_not_ws c hlead).1
  have hstop : numStop ([] : List Char) := by
    intro d hd
    simp at hd
  have hlen := jsize_le_dump_length v
  have hp := (rtp_all (JValue.jsize v)).1 v ((dumpChars v).length + 1) []
    le_rfl h (by omega) hstop
  rw [List.append_nil] at hp
  show (match jparseV ((skipWs (dumpChars v)).length + 1) (skipWs (dumpChars v)) with
    | some (w, rest) => if (skipWs rest).isEmpty then some w else none
    | none => none) = some v
  rw [hskip, hp]
  rfl

/-- C4: for every well-formed JSON value `v` (finite-decimal numbers and
duplicate-free object keys — exactly the values Python's `json.dumps` can
produce), `extract_json` applied to the standard serialization of `v`
returns `v` itself: the extraction round-trip law holds. -/
theorem c4_extract_json_round_trip (v : JValue) (h : JWF v) :
    extract_json (dumps v) = some v := by
  obtain ⟨c, t, hsh, hlead⟩ := dumpChars_shape v
  have htoList : (dumps v).toList = c :: t := hsh
  have hne : ¬(dumps v = "") := by
    intro he
    have h2 : (dumps v).toList = "".toList := by rw [he]
    rw [htoList] at h2
    simp at h2
  have hcE : c ≠ 'E' := by
    rcases hlead with h' | h' | h' | h' | h' | h' | h' | h'
    · subst h'; decide
    · subst h'; decide
    · subst h'; decide
    · subst h'; decide
    · subst h'; decide
    · subst h'; decide
    · subst h'; decide
    · intro he
      subst he
      simp only [isDig] at h'
      revert h'
      decide
  have herr : pyStartsWith (dumps v) "Error:" = false := by
    rw [pyStartsWith, htoList]
    show (('E' == c) && _) = false
    have hb : ('E' == c) = false := by
      simp only [beq_eq_false_iff_ne]
      exact fun he => hcE he.symm
    rw [hb, Bool.false_and]
  rw [extract_json, if_neg (by simp [hne, herr])]
  show (match json_loads (pyStrip (dumps v)) with
    | some w => some w
    | none =>
      match codeBlockAttempt (pyStrip (dumps v)) with
      | some w => some w
      | none =>
        match arrayAttempt (pyStrip (dumps v)) with
        | some w => some w
        | none => objectAttempt (pyStrip (dumps v))) = some v
  rw [pyStrip_dumps, json_loads_dumps v h]

/-- C4 witness: the round trip at a concrete value. -/
theorem c4_extract_json_round_trip_witness :
    JWF (JValue.arr [JValue.null, JValue.str "ok"]) ∧
      extract_json (dumps (JValue.arr [JValue.null, JValue.str "ok"]))
        = some (JValue.arr [JValue.null, JValue.str "ok"]) :=
  ⟨⟨trivial, trivial, trivial⟩,
    c4_extract_json_round_trip _ ⟨trivial, trivial, trivial⟩⟩

/-! ## `ValidatorAgent._extract_search_keywords` (research.py lines 1065-1077)
and the specification's description of the same derivation. -/

/-- The fixed filler-word list of research.py line 1071. -/
def fillerWords : List String := ["the", "a", "an", "is", "are", "but", "has",
  "have", "this", "that", "these", "those", "been", "being"]

/-- `ValidatorAgent._extract_search_keywords`: combine title and gap, cut to
150 characters, lowercase, split, keep words longer than 4 characters that are
not filler, take the first 5 and append the topic. -/
def extract_search_keywords (gap_text title_text topic : String) : String :=
  String.intercalate " "
    (((pySplit (pyLower (pyTake (title_text ++ " " ++ gap_text) 150))).filter
        (fun w => 4 < w.length && !fillerWords.contains w)).take 5
      ++ [topic])

/-- The search-query derivation exactly as the specification words it:
concatenate title and gap text, keep the first 150 characters, lowercase,
split on whitespace, drop every token of length at most 4 and every token in
the filler set, keep the first 5 remaining tokens, append the topic. -/
def search_query_spec (gap_text title_text topic : String) : String :=
  String.intercalate " "
    (((pySplit (pyLower (pyTake (title_text ++ " " ++ gap_text) 150))).filter
        (fun w => !decide (w.length ≤ 4) && !decide (w ∈ fillerWords))).take 5
      ++ [topic])

/-- C7: the Validator's search-query derivation agrees with the function the
specification describes, on every title, gap and topic string. -/
theorem c7_search_query_derivation (gap_text title_text topic : String) :
    extract_search_keywords gap_text title_text topic
      = search_query_spec gap_text title_text topic := by
  unfold extract_search_keywords search_query_spec
  congr 3
  apply List.filter_congr
  intro w _
  have e1 : decide (4 < w.length) = !decide (w.length ≤ 4) := by
    by_cases h : 4 < w.length
    · simp [h, Nat.not_le.mpr h]
    · simp [h, Nat.not_lt.mp h]
  have e2 : fillerWords.contains w = decide (w ∈ fillerWords) := by
    by_cases h : w ∈ fillerWords
    · simp [h]
    · simp [h]
  rw [e1, e2]

/-- C5: `extract_json` is a total function of its input (the embedding never
raises by construction); it returns `none` immediately on the empty string and
on any input starting with `"Error:"`, and returns `none` when the direct
parse and all three fallback attempts fail. -/
theorem c5_extract_json_never_raises (text : String) :
    (text = "" → extract_json text = none)
    ∧ (pyStartsWith text "Error:" = true → extract_json text = none)
    ∧ (json_loads (pyStrip text) = none →
        codeBlockAttempt (pyStrip text) = none →
        arrayAttempt (pyStrip text) = none →
        objectAttempt (pyStrip text) = none →
        extract_json text = none) := by
  refine ⟨?_, ?_, ?_⟩
  · intro he
    subst he
    rfl
  · intro herr
    rw [extract_json, if_pos (by simp [herr])]
  · intro h1 h2 h3 h4
    rw [extract_json]
    by_cases hg : (decide (text = "") || pyStartsWith text "Error:") = true
    · rw [if_pos hg]
    · rw [if_neg hg]
      show (match json_loads (pyStrip text) with
        | some w => some w
        | none =>
          match codeBlockAttempt (pyStrip text) with
          | some w => some w
          | none =>
            match arrayAttempt (pyStrip text) with
            | some w => some w
            | none => objectAttempt (pyStrip text)) = none
      rw [h1, h2, h3, h4]

/-- C5 witness: the three guards at concrete inputs. -/
theorem c5_extract_json_never_raises_witness :
    extract_json "" = none
    ∧ extract_json "Error: API failure" = none
    ∧ extract_json "no json in this prose" = none :=
  ⟨(c5_extract_json_never_raises "").1 rfl,
   (c5_extract_json_never_raises "Error: API failure").2.1 (by rfl),
   (c5_extract_json_never_raises "no json in this prose").2.2 rfl rfl rfl rfl⟩

/-! ## C6: the array fallback as the claim words it, versus the source. -/

/-- The array fallback exactly as the claim describes it: find the first `[`
of the text, bracket-depth count on the RAW text to its matching `]`, then
clean and parse exactly that substring. -/
def arrayAttemptSpec (t : String) : Option JValue :=
  match t.toList.dropWhile (fun c => c != '[') with
  | [] => none
  | l =>
    if bracketEnd '[' ']' l 0 0 > 0 then
      json_loads (clean_json (String.mk (l.take (bracketEnd '[' ']' l 0 0))))
    else none

/-- C6 counterexample: when a block comment inside the span contains a `]`,
the source cleans the greedy first-`[`-to-last-`]` span before depth-counting
and parses successfully, while the claimed algorithm depth-counts the raw text
first, keeps a span that cuts the comment open, and fails to parse. -/
theorem c6_array_fallback_counterexample :
    extract_json "prefix [1, 2, /* a ] b */ 3] suffix"
        = some (JValue.arr [JValue.num 1, JValue.num 2, JValue.num 3])
      ∧ arrayAttemptSpec (pyStrip "prefix [1, 2, /* a ] b */ 3] suffix") = none := by
  constructor
  · rfl
  · rfl

/-- C6 (amended): when the guard passes and the direct parse and fenced-block
attempts fail, `extract_json` runs the array fallback on the stripped text: it
takes the greedy span from the first `[` to the last `]`, strips it, CLEANS
it, and only then depth-counts on the cleaned text, truncating there when the
count closes, before parsing; if that fails the object fallback does the same
with braces.  The depth count runs after the cleaning pass, not on the raw
text as claimed. -/
theorem c6_array_fallback_corrected (text : String)
    (h0 : (decide (text = "") || pyStartsWith text "Error:") = false)
    (h1 : json_loads (pyStrip text) = none)
    (h2 : codeBlockAttempt (pyStrip text) = none) :
    extract_json text =
      (match firstSpan '[' ']' (pyStrip text).toList with
       | none => objectAttempt (pyStrip text)
       | some g =>
         match json_loads (String.mk
             (if bracketEnd '[' ']' (cleanChars (pyStripChars g)) 0 0 > 0 then
               (cleanChars (pyStripChars g)).take
                 (bracketEnd '[' ']' (cleanChars (pyStripChars g)) 0 0)
             else cleanChars (pyStripChars g))) with
         | some v => some v
         | none => objectAttempt (pyStrip text)) := by
  rw [extract_json, if_neg (by simp [h0])]
  show (match json_loads (pyStrip text) with
    | some w => some w
    | none =>
      match codeBlockAttempt (pyStrip text) with
      | some w => some w
      | none =>
        match arrayAttempt (pyStrip text) with
        | some w => some w
        | none => objectAttempt (pyStrip text)) = _
  rw [h1, h2]
  show (match arrayAttempt (pyStrip text) with
    | some w => some w
    | none => objectAttempt (pyStrip text)) = _
  rw [arrayAttempt]
  cases hfs : firstSpan '[' ']' (pyStrip text).toList with
  | none => rfl
  | some g =>
    cases hjl : json_loads (String.mk
        (if bracketEnd '[' ']' (cleanChars (pyStripChars g)) 0 0 > 0 then
          (cleanChars (pyStripChars g)).take
            (bracketEnd '[' ']' (cleanChars (pyStripChars g)) 0 0)
        else cleanChars (pyStripChars g))) with
    | none => rfl
    | some v => rfl

/-- C6 witness: the amended fallback description at a concrete input. -/
theorem c6_array_fallback_corrected_witness :
    (decide (("z [1, 2]" : String) = "") || pyStartsWith "z [1, 2]" "Error:")
        = false
    ∧ json_loads (pyStrip "z [1, 2]") = none
    ∧ codeBlockAttempt (pyStrip "z [1, 2]") = none
    ∧ extract_json "z [1, 2]" =
      (match firstSpan '[' ']' (pyStrip "z [1, 2]").toList with
       | none => objectAttempt (pyStrip "z [1, 2]")
       | some g =>
         match json_loads (String.mk
             (if bracketEnd '[' ']' (cleanChars (pyStripChars g)) 0 0 > 0 then
               (cleanChars (pyStripChars g)).take
                 (bracketEnd '[' ']' (cleanChars (pyStripChars g)) 0 0)
             else cleanChars (pyStripChars g))) with
         | some v => some v
         | none => objectAttempt (pyStrip "z [1, 2]")) :=
  ⟨rfl, rfl, rfl, c6_array_fallback_corrected "z [1, 2]" rfl rfl rfl⟩

/-! ## C9: `SynthesizerAgent.synthesize` item normalization (research.py lines
616-641) and the fallback title generation (lines 704-715). -/

/-- The per-item normalization inside `synthesize` (lines 616-641): a dict
item passes through unchanged, a bare string is promoted to a minimal insight
record whose title is `item[:100] if len(item) > 100 else item`, anything else
is dropped. -/
def promoteItem : JValue → Option (List (String × JValue))
  | .obj d => some d
  | .str item => some
      [("title", .str (if 100 < item.length then pyTake item 100 else item)),
       ("observation", .str item),
       ("hypothesis", .str ""),
       ("gap", .str item),
       ("experiment_design", .obj []),
       ("expected_insight", .str ""),
       ("skeptic_challenge", .str ""),
       ("impact", .str ""),
       ("novelty_score", .num 5),
       ("feasibility_score", .num 5),
       ("impact_score", .num 5)]
  | _ => none

/-- The item-validation loop of `synthesize` (lines 614-641). -/
def validateInsightItems (l : List JValue) : List (List (String × JValue)) :=
  l.filterMap promoteItem

/-- The gap-derived fallback title of `_create_fallback_insights` (lines
704-715): first 10 words of the gap text, with "..." appended exactly when the
gap has more than 10 words. -/
def fallbackTitle (i : ℕ) (gap_text : String) : String :=
  if String.intercalate " " ((pySplit gap_text).take 10) ≠ "" then
    "Research Direction " ++ toString i ++ ": "
      ++ String.intercalate " " ((pySplit gap_text).take 10)
      ++ (if 10 < (pySplit gap_text).length then "..." else "")
  else "Research Direction " ++ toString i ++ ": Addressing Identified Research Gap"

/-- C9 counterexample: the bare-string promotion path of `synthesize` DOES
truncate the title — a 101-character string item becomes an insight whose
title is only its first 100 characters. -/
theorem c9_title_truncation_counterexample :
    ∃ d, promoteItem (JValue.str (String.mk (List.replicate 101 'a'))) = some d
      ∧ dget d "title"
          = some (JValue.str (String.mk (List.replicate 100 'a')))
      ∧ String.mk (List.replicate 100 'a')
          ≠ String.mk (List.replicate 101 'a') := by
  refine ⟨_, rfl, ?_, by decide⟩
  rfl

/-- C9 (amended): in the `synthesize` item normalization, a dict insight
passes through with its title untouched, but the bare-string promotion path
truncates: a string item longer than 100 characters becomes an insight titled
by its first 100 characters (an ellipsis-free truncation outside the
documented gap-fallback exception), while a string item of at most 100
characters becomes its own title unchanged. -/
theorem c9_title_handling :
    (∀ d, promoteItem (JValue.obj d) = some d)
    ∧ (∀ s : String, 100 < s.length →
        ∃ d, promoteItem (JValue.str s) = some d
          ∧ dget d "title" = some (JValue.str (pyTake s 100)))
    ∧ (∀ s : String, s.length ≤ 100 →
        ∃ d, promoteItem (JValue.str s) = some d
          ∧ dget d "title" = some (JValue.str s)) := by
  refine ⟨fun d => rfl, ?_, ?_⟩
  · intro s hs
    refine ⟨_, rfl, ?_⟩
    rw [show (if 100 < s.length then pyTake s 100 else s) = pyTake s 100
      from if_pos hs]
    rfl
  · intro s hs
    refine ⟨_, rfl, ?_⟩
    rw [show (if 100 < s.length then pyTake s 100 else s) = s
      from if_neg (by omega)]
    rfl

/-- C9 witness: both branches of the promotion at concrete strings. -/
theorem c9_title_handling_witness :
    promoteItem (JValue.obj [("title", JValue.str "t")])
        = some [("title", JValue.str "t")]
    ∧ (100 < (String.mk (List.replicate 101 'b')).length
        ∧ ∃ d, promoteItem (JValue.str (String.mk (List.replicate 101 'b')))
            = some d
          ∧ dget d "title" = some (JValue.str
              (pyTake (String.mk (List.replicate 101 'b')) 100)))
    ∧ (("ab" : String).length ≤ 100
        ∧ ∃ d, promoteItem (JValue.str "ab") = some d
          ∧ dget d "title" = some (JValue.str "ab")) :=
  ⟨c9_title_handling.1 _,
   ⟨by decide, c9_title_handling.2.1 _ (by decide)⟩,
   ⟨by decide, c9_title_handling.2.2 "ab" (by decide)⟩⟩

/-! ## C10: `search_arxiv` entry parsing (arxiv.py lines 47-77). -/

/-- `Paper` (arxiv.py lines 12-19).  `url` is an `Option` because the source
stores `link_elem.text`, which can be Python `None`. -/
structure Paper where
  title : String
  abstract : String
  authors : List String
  year : ℤ
  url : Option String

/-- One Atom `<entry>`: for each child element, `none` models an absent
element, `some none` an element whose `text` is Python `None`, and
`some (some s)` an element with text `s`.  `authorsE` holds, per `<author>`
element, the result of its `find("name")` in the same encoding. -/
structure AtomEntry where
  titleE : Option (Option String)
  summaryE : Option (Option String)
  idE : Option (Option String)
  publishedE : Option (Option String)
  authorsE : List (Option (Option String))

/-- Tail of an `int()` digit string: digits with single underscores allowed
between digits. -/
def pyIntTail : List Char → Bool
  | [] => true
  | ['_'] => false
  | '_' :: c :: rest => isDig c && pyIntTail rest
  | c :: rest => isDig c && pyIntTail rest

/-- A nonempty `int()` digit string starts with a digit. -/
def pyIntHead : List Char → Bool
  | [] => false
  | c :: rest => isDig c && pyIntTail rest

/-- Python `int(s)` on a decimal string: surrounding whitespace, an optional
sign, then ASCII digits with single underscores between digits (`none` models
the `ValueError`; non-ASCII digits are out of the source's data). -/
def pyInt (s : String) : Option ℤ :=
  match pyStripChars s.toList with
  | '-' :: rest =>
    if pyIntHead rest then
      some (-(digitsVal (rest.filter (fun c => c != '_')) : ℤ))
    else none
  | '+' :: rest =>
    if pyIntHead rest then
      some (digitsVal (rest.filter (fun c => c != '_')))
    else none
  | l =>
    if pyIntHead l then
      some (digitsVal (l.filter (fun c => c != '_')))
    else none

/-- `title_elem.text.strip() if title_elem.text else "Untitled"` (line 57). -/
def entryTitle : Option String → String
  | some t => if t ≠ "" then pyStrip t else "Untitled"
  | none => "Untitled"

/-- `summary_elem.text.strip() if summary_elem.text else
"No abstract available."` (line 58). -/
def entrySummary : Option String → String
  | some t => if t ≠ "" then pyStrip t else "No abstract available."
  | none => "No abstract available."

/-- `link_elem.text if link_elem is not None else ""` (line 59). -/
def entryLink : Option (Option String) → Option String
  | some lOpt => lOpt
  | none => some ""

/-- The author comprehension (lines 60-62): keep the text of each present
`name` element whose text is truthy. -/
def entryAuthors (aE : List (Option (Option String))) : List String :=
  aE.filterMap (fun a =>
    match a with
    | some (some s) => if s ≠ "" then some s else none
    | _ => none)

/-- The per-entry body of `search_arxiv` (lines 47-75): skip the entry when
the title or summary element is missing, or when `int(published[:4])` raises;
otherwise build the `Paper` with the source's defaults (`published` defaults
to `""` when the element is missing, and the year to the constant 2024 when
`published` is falsy or shorter than 4 characters). -/
def parse_entry (e : AtomEntry) : Option Paper :=
  match e.titleE, e.summaryE with
  | some tOpt, some sOpt =>
    match (match e.publishedE with | some pOpt => pOpt | none => some "") with
    | some p =>
      if p ≠ "" ∧ 4 ≤ p.length then
        match pyInt (pyTake p 4) with
        | some y => some ⟨entryTitle tOpt, entrySummary sOpt,
            entryAuthors e.authorsE, y, entryLink e.idE⟩
        | none => none
      else some ⟨entryTitle tOpt, entrySummary sOpt,
          entryAuthors e.authorsE, 2024, entryLink e.idE⟩
    | none => some ⟨entryTitle tOpt, entrySummary sOpt,
        entryAuthors e.authorsE, 2024, entryLink e.idE⟩
  | _, _ => none

/-- `search_arxiv`'s response handling: on a successfully fetched and parsed
feed, parse each entry (skipping the failing ones) and return at most
`max_results`; when the request or the XML parsing raises, return `[]`. -/
def search_arxiv_entries (entries : Except Unit (List AtomEntry))
    (max_results : ℕ) : List Paper :=
  match entries with
  | .error _ => []
  | .ok es => (es.filterMap parse_entry).take max_results

/-- The title and abstract of any paper built from an entry follow the
source's text defaults. -/
theorem parse_entry_fields (tOpt sOpt : Option String)
    (iE pE : Option (Option String)) (aE : List (Option (Option String)))
    (p : Paper)
    (hp : parse_entry ⟨some tOpt, some sOpt, iE, pE, aE⟩ = some p) :
    p.title = entryTitle tOpt ∧ p.abstract = entrySummary sOpt := by
  rcases pE with _ | pOpt
  · simp only [parse_entry] at hp
    rw [if_neg (by simp)] at hp
    cases hp
    exact ⟨rfl, rfl⟩
  · rcases pOpt with _ | ptxt
    · simp only [parse_entry] at hp
      cases hp
      exact ⟨rfl, rfl⟩
    · simp only [parse_entry] at hp
      by_cases hc : ptxt ≠ "" ∧ 4 ≤ ptxt.length
      · rw [if_pos hc] at hp
        cases hpy : pyInt (pyTake ptxt 4) with
        | none => rw [hpy] at hp; cases hp
        | some y =>
          rw [hpy] at hp
          cases hp
          exact ⟨rfl, rfl⟩
      · rw [if_neg hc] at hp
        cases hp
        exact ⟨rfl, rfl⟩

/-- C10 counterexample: an entry with a missing title element is skipped
entirely (the claim says it gets the title "Untitled"), and an entry whose
published text fails `int()` is skipped entirely (the claim says it gets the
current year). -/
theorem c10_arxiv_defaults_counterexample :
    parse_entry ⟨none, some (some "An abstract"), none, none, []⟩ = none
    ∧ parse_entry ⟨some (some "T"), some (some "A"), none,
        some (some "20XX-01-01"), []⟩ = none := by
  exact ⟨rfl, rfl⟩

/-- C10 (amended): a missing title or summary ELEMENT skips the entry; the
defaults "Untitled" / "No abstract available." apply only when the element is
present with falsy text; a falsy or shorter-than-4 published text yields the
CONSTANT year 2024 (not the current year), while a present 4+-character
published text that fails `int()` skips the entry; and zero entries yield
zero papers. -/
theorem c10_arxiv_entry_defaults (tE sE iE pE : Option (Option String))
    (aE : List (Option (Option String))) :
    ((tE = none ∨ sE = none) → parse_entry ⟨tE, sE, iE, pE, aE⟩ = none)
    ∧ (∀ tOpt sOpt, tE = some tOpt → sE = some sOpt →
        (((tOpt = none ∨ tOpt = some "") → ∀ p,
            parse_entry ⟨tE, sE, iE, pE, aE⟩ = some p → p.title = "Untitled")
        ∧ ((sOpt = none ∨ sOpt = some "") → ∀ p,
            parse_entry ⟨tE, sE, iE, pE, aE⟩ = some p →
              p.abstract = "No abstract available.")
        ∧ ((pE = none ∨ pE = some none
              ∨ (∃ ptxt, pE = some (some ptxt)
                  ∧ (ptxt = "" ∨ ptxt.length < 4))) →
            ∀ p, parse_entry ⟨tE, sE, iE, pE, aE⟩ = some p → p.year = 2024)
        ∧ (∀ ptxt, pE = some (some ptxt) → ptxt ≠ "" → 4 ≤ ptxt.length →
            pyInt (pyTake ptxt 4) = none →
            parse_entry ⟨tE, sE, iE, pE, aE⟩ = none)))
    ∧ search_arxiv_entries (.ok []) 5 = [] := by
  refine ⟨?_, ?_, rfl⟩
  · intro h
    rcases h with h | h
    · subst h
      rfl
    · subst h
      cases tE <;> rfl
  · intro tOpt sOpt ht hs
    subst ht
    subst hs
    refine ⟨?_, ?_, ?_, ?_⟩
    · intro htf p hp
      have hf := (parse_entry_fields tOpt sOpt iE pE aE p hp).1
      rcases htf with h | h <;> subst h
      · exact hf
      · rw [hf]
        simp [entryTitle]
    · intro hsf p hp
      have hf := (parse_entry_fields tOpt sOpt iE pE aE p hp).2
      rcases hsf with h | h <;> subst h
      · exact hf
      · rw [hf]
        simp [entrySummary]
    · intro hpf p hp
      rcases hpf with h | h | ⟨ptxt, h, hshort⟩
      · subst h
        simp only [parse_entry] at hp
        rw [if_neg (by simp)] at hp
        cases hp
        rfl
      · subst h
        simp only [parse_entry] at hp
        cases hp
        rfl
      · subst h
        simp only [parse_entry] at hp
        rw [if_neg (by
            intro hcon
            rcases hshort with h2 | h2
            · exact hcon.1 h2
            · have := hcon.2
              omega)] at hp
        cases hp
        rfl
    · intro ptxt hpe hne hlen hint
      subst hpe
      simp only [parse_entry]
      rw [if_pos ⟨hne, hlen⟩, hint]

/-- C10 witness: every rule of the amended statement at concrete entries. -/
theorem c10_arxiv_entry_defaults_witness :
    parse_entry ⟨none, some (some "A"), none, none, []⟩ = none
    ∧ (Paper.mk "Untitled" "No abstract available." [] 2024 (some "")).title
        = "Untitled"
    ∧ (Paper.mk "Untitled" "No abstract available." [] 2024 (some "")).abstract
        = "No abstract available."
    ∧ (Paper.mk "Untitled" "No abstract available." [] 2024 (some "")).year
        = 2024
    ∧ parse_entry ⟨some (some "T"), some (some "A"), none,
        some (some "20XX"), []⟩ = none
    ∧ search_arxiv_entries (.ok []) 5 = [] :=
  ⟨(c10_arxiv_entry_defaults none (some (some "A")) none none []).1
      (Or.inl rfl),
   ((c10_arxiv_entry_defaults (some (some "")) (some none) none none []).2.1
      (some "") none rfl rfl).1 (Or.inr rfl) _ rfl,
   ((c10_arxiv_entry_defaults (some (some "")) (some none) none none []).2.1
      (some "") none rfl rfl).2.1 (Or.inl rfl) _ rfl,
   ((c10_arxiv_entry_defaults (some (some "")) (some none) none none []).2.1
      (some "") none rfl rfl).2.2.1 (Or.inl rfl) _ rfl,
   ((c10_arxiv_entry_defaults (some (some "T")) (some (some "A")) none
      (some (some "20XX")) []).2.1 (some "T") (some "A") rfl rfl).2.2.2
      "20XX" rfl (by decide) (by decide) rfl,
   (c10_arxiv_entry_defaults none none none none []).2.2⟩

/-! ## `ValidatorAgent.validate` (research.py lines 784-1003).  The two
external collaborators — the arXiv search and the LLM — enter as oracle
parameters indexed by the insight's position in the list: `search i` is what
`search_arxiv(query, 3)` returns (or raises) for insight `i`, and `resp i`
the string `self.llm.call(prompt)` returns there.  Exceptions escaping the
loop body are modeled with `Except`. -/

/-- `x.strip()` on an arbitrary Python value: only strings have `strip`;
anything else raises (`AttributeError`). -/
def pyStripAttr : JValue → Except Unit String
  | .str s => .ok (pyStrip s)
  | _ => .error ()

/-- The list/dict normalization of the extracted validation (lines 925-935):
a list is replaced by its first element when that is a dict, otherwise by
`None`; any non-dict becomes `None`. -/
def normalizeValidation : Option JValue → Option (List (String × JValue))
  | some (.arr l) =>
    (match l.head? with
     | some (.obj m) => some m
     | _ => none)
  | some (.obj m) => some m
  | _ => none

/-- The inconclusive-parse default of lines 938-945. -/
def inconclusiveResult (d : List (String × JValue)) : List (String × JValue) :=
  dset (dset (dset d "validated" (.bool true))
    "survival_score" (.num 7))
    "validation_evidence"
    (.str "Validation inconclusive - insight retained with caution.")

/-- The optional `related_work` / `validation_comment` writes of the survive
branch (lines 960-964). -/
def applyOptFields (d valid : List (String × JValue)) :
    List (String × JValue) :=
  (fun d1 =>
    if pyTruthy (dgetD valid "validation_comment" .null) then
      dset d1 "validation_comment" (dgetD valid "validation_comment" (.str ""))
    else d1)
  (if pyTruthy (dgetD valid "related_work" .null) then
    dset d "related_work" (dgetD valid "related_work" (.arr []))
  else d)

/-- The experiment-design evaluation block (lines 966-975): entered when
`exp_eval` is truthy; `.get` on a truthy non-dict raises. -/
def applyExpEval (d valid : List (String × JValue)) :
    Except Unit (List (String × JValue)) :=
  if pyTruthy (dgetD valid "experiment_design_evaluation" (.obj [])) then
    match dgetD valid "experiment_design_evaluation" (.obj []) with
    | .obj em =>
      .ok (dset (dset (dset d
        "experiment_design_quality" (dgetD em "overall_quality" (.num 0)))
        "experiment_design_feedback" (dgetD em "feedback" (.str "")))
        "experiment_design_scores" (.obj
          [("completeness", dgetD em "completeness" (.num 0)),
           ("reproducibility", dgetD em "reproducibility" (.num 0)),
           ("informativeness", dgetD em "informativeness" (.num 0)),
           ("branch_logic", dgetD em "branch_logic" (.num 0))]))
    | _ => .error ()
  else .ok d

/-- The refinement block of the survive branch (lines 977-985): may update
`observation` and `gap`; `strip` on a truthy non-string raises. -/
def applyRefinement (d : List (String × JValue))
    (observation gap_text refinement : JValue) :
    Except Unit (List (String × JValue)) :=
  if pyTruthy refinement then
    match pyStripAttr refinement with
    | .error e => .error e
    | .ok rs =>
      if rs ≠ "" then
        match (if pyTruthy observation then
            (pyStripAttr observation).map (fun os => decide (rs ≠ os))
          else .ok false) with
        | .error e => .error e
        | .ok upd1 =>
          match (if pyTruthy observation then
              (pyStripAttr gap_text).map (fun gs => decide (rs ≠ gs))
            else .ok true) with
          | .error e => .error e
          | .ok upd2 =>
            .ok (if upd2 then
                dset (if upd1 then dset d "observation" refinement else d)
                  "gap" refinement
              else (if upd1 then dset d "observation" refinement else d))
      else .ok d
  else .ok d

/-- The survive branch of the decision (lines 949-988). -/
def surviveBranch (d valid : List (String × JValue))
    (observation gap_text survival_score evidence : JValue) :
    Except Unit (List (String × JValue)) :=
  match applyExpEval
      (applyOptFields
        (dset (dset (dset (dset d
          "validated" (.bool true))
          "survival_score" survival_score)
          "validation_evidence" evidence)
          "validation_dialogue" evidence)
        valid)
      valid with
  | .error e => .error e
  | .ok d3 =>
    applyRefinement d3 observation gap_text (dgetD valid "refinement" (.str ""))

/-- One iteration of the validate loop for a dict insight (lines 793-992):
`.ok (some d')` keeps `d'`, `.ok none` drops the insight, `.error` models an
escaping exception. -/
def validateStep (papers : Except Unit (List Paper)) (resp : String)
    (d : List (String × JValue)) :
    Except Unit (Option (List (String × JValue))) :=
  (fun challenge =>
    if challenge.isEmpty then
      .ok (some (dset (dset (dset d "validated" (.bool true))
        "survival_score" (.num (17 / 2)))
        "validation_evidence"
        (.str "No contradicting prior work found in recent literature. Gap appears valid.")))
    else
      match normalizeValidation (extract_json resp) with
      | none => .ok (some (inconclusiveResult d))
      | some [] => .ok (some (inconclusiveResult d))
      | some (kv :: rest) =>
        (fun (valid : List (String × JValue)) =>
          match pyGE (dgetD valid "survival_score" (.num 5)) 6 with
          | none => .error ()
          | some sge =>
            if pyTruthy (dgetD valid "gap_still_valid" (.bool sge)) && sge then
              match surviveBranch d valid
                  (dgetD d "observation" (.str ""))
                  (dgetD d "gap" (.str ""))
                  (dgetD valid "survival_score" (.num 5))
                  (dgetD valid "evidence"
                    (.str "Gap validated against recent literature.")) with
              | .error e => .error e
              | .ok d' => .ok (some d')
            else .ok none) (kv :: rest))
  (match papers with
   | .error _ => ([] : List Paper)
   | .ok ps => ps)

/-- The validate loop over the insight list; a non-dict insight is skipped
(line 795). -/
def validateLoop (search : ℕ → Except Unit (List Paper))
    (resp : ℕ → String) :
    ℕ → List JValue → Except Unit (List (List (String × JValue)))
  | _, [] => .ok []
  | i, x :: xs =>
    match x with
    | .obj d =>
      (match validateStep (search i) (resp i) d with
       | .error e => .error e
       | .ok r =>
         match validateLoop search resp (i + 1) xs with
         | .error e => .error e
         | .ok rs =>
           .ok ((match r with | some d' => [d'] | none => []) ++ rs))
    | _ => validateLoop search resp (i + 1) xs

/-- `x.get('novelty_score', 0)`, the terminal fallback's max key (line 997);
`.get` on a non-dict raises. -/
def noveltyKey : JValue → Except Unit JValue
  | .obj d => .ok (dgetD d "novelty_score" (.num 0))
  | _ => .error ()

/-- `max(insights, key=...)`: scan keeping the first strict maximum, as
CPython does; an incomparable pair raises (`TypeError`). -/
def pyMaxGo (best : JValue) : List JValue → Except Unit JValue
  | [] => .ok best
  | y :: ys =>
    match noveltyKey y, noveltyKey best with
    | .ok ky, .ok kb =>
      (match pyGT ky kb with
       | some true => pyMaxGo y ys
       | some false => pyMaxGo best ys
       | none => .error ())
    | _, _ => .error ()

/-- `max(insights, key=lambda x: x.get('novelty_score', 0))` (line 997). -/
def pyMaxByNovelty : List JValue → Except Unit JValue
  | [] => .error ()
  | x :: xs => pyMaxGo x xs

/-- `ValidatorAgent.validate` (lines 784-1003): the loop, then the terminal
fallback that resurrects the highest-novelty input insight when every insight
was rejected. -/
def validate (search : ℕ → Except Unit (List Paper)) (resp : ℕ → String)
    (insights : List JValue) :
    Except Unit (List (List (String × JValue))) :=
  match validateLoop search resp 1 insights with
  | .error e => .error e
  | .ok validated =>
    if validated.isEmpty && !insights.isEmpty then
      match pyMaxByNovelty insights with
      | .error e => .error e
      | .ok (.obj bd) =>
        .ok [dset (dset (dset bd "validated" (.bool false))
          "survival_score" (.num 5))
          "validation_evidence"
          (.str "All insights were challenged, but this had the highest novelty score.")]
      | .ok _ => .error ()
    else .ok validated

/-! ## C1: the default-survive branch. -/

/-- `find?` ignores an overwrite of a different key. -/
theorem find_map_dset (d : List (String × JValue)) (k k' : String)
    (v : JValue) (h : k' ≠ k) :
    (d.map (fun p => if p.1 = k then (k, v) else p)).find?
        (fun p => p.1 = k')
      = d.find? (fun p => p.1 = k') := by
  induction d with
  | nil => rfl
  | cons p ps ih =>
    rw [List.map_cons, List.find?_cons, List.find?_cons]
    by_cases hpk : p.1 = k
    · rw [if_pos hpk]
      rw [show (decide ((k, v).1 = k')) = false from by
        simp only [decide_eq_false_iff_not]
        exact fun hh => h hh.symm]
      rw [show (decide (p.1 = k')) = false from by
        simp only [decide_eq_false_iff_not]
        rw [hpk]
        exact fun hh => h hh.symm]
      exact ih
    · rw [if_neg hpk]
      cases hd : (decide (p.1 = k')) with
      | true => rfl
      | false => exact ih

/-- `find?` ignores an appended binding of a different key. -/
theorem find_append_single (d : List (String × JValue)) (k k' : String)
    (v : JValue) (h : k' ≠ k) :
    (d ++ [(k, v)]).find? (fun p => p.1 = k')
      = d.find? (fun p => p.1 = k') := by
  induction d with
  | nil =>
    rw [List.nil_append, List.find?_cons]
    rw [show (decide ((k, v).1 = k')) = false from by
      simp only [decide_eq_false_iff_not]
      exact fun hh => h hh.symm]
  | cons p ps ih =>
    rw [List.cons_append, List.find?_cons, List.find?_cons]
    cases hd : (decide (p.1 = k')) with
    | true => rfl
    | false => exact ih

/-- Python dict assignment changes no other key. -/
theorem dget_dset_ne (d : List (String × JValue)) (k k' : String)
    (v : JValue) (h : k' ≠ k) : dget (dset d k v) k' = dget d k' := by
  rw [dset]
  by_cases hany : d.any (fun p => p.1 = k)
  · rw [if_pos hany, dget, dget, find_map_dset d k k' v h]
  · rw [if_neg hany, dget, dget, find_append_single d k k' v h]

/-- C1: for an insight whose challenge search returns zero papers or raises,
the validator keeps the insight with `validated=True`, `survival_score=8.5`
and the fixed evidence string; no LLM call is made (the outcome does not
depend on the LLM response) and no other key of the insight changes. -/
theorem c1_default_survive (papers : Except Unit (List Paper))
    (resp resp2 : String) (d : List (String × JValue))
    (h : papers = .ok [] ∨ ∃ e, papers = .error e) :
    validateStep papers resp d
        = .ok (some (dset (dset (dset d "validated" (.bool true))
            "survival_score" (.num (17 / 2)))
            "validation_evidence" (.str
              "No contradicting prior work found in recent literature. Gap appears valid.")))
      ∧ validateStep papers resp d = validateStep papers resp2 d
      ∧ (∀ k, k ≠ "validated" → k ≠ "survival_score" →
          k ≠ "validation_evidence" →
          ∀ d', validateStep papers resp d = .ok (some d') →
            dget d' k = dget d k) := by
  have hstep : ∀ r : String, validateStep papers r d
      = .ok (some (dset (dset (dset d "validated" (.bool true))
          "survival_score" (.num (17 / 2)))
          "validation_evidence" (.str
            "No contradicting prior work found in recent literature. Gap appears valid."))) := by
    intro r
    rcases h with h | ⟨e, h⟩ <;> subst h <;> rfl
  refine ⟨hstep resp, (hstep resp).trans (hstep resp2).symm, ?_⟩
  intro k h1 h2 h3 d' hd'
  rw [hstep resp] at hd'
  have h4 := Option.some.inj (Except.ok.inj hd')
  rw [← h4]
  rw [dget_dset_ne _ _ _ _ h3, dget_dset_ne _ _ _ _ h2,
    dget_dset_ne _ _ _ _ h1]

/-- C1 witness: the default-survive branch at a concrete insight, for both a
zero-result search and a raised search. -/
theorem c1_default_survive_witness :
    validateStep (.ok ([] : List Paper)) "r1" [("title", JValue.str "t")]
        = .ok (some (dset (dset (dset [("title", JValue.str "t")]
            "validated" (JValue.bool true))
            "survival_score" (JValue.num (17 / 2)))
            "validation_evidence" (JValue.str
              "No contradicting prior work found in recent literature. Gap appears valid.")))
      ∧ validateStep (.error ()) "r1" [("title", JValue.str "t")]
          = validateStep (.error ()) "r2" [("title", JValue.str "t")]
      ∧ dget (dset (dset (dset [("title", JValue.str "t")]
            "validated" (JValue.bool true))
            "survival_score" (JValue.num (17 / 2)))
            "validation_evidence" (JValue.str
              "No contradicting prior work found in recent literature. Gap appears valid."))
          "title"
        = dget [("title", JValue.str "t")] "title" :=
  ⟨(c1_default_survive (.ok []) "r1" "r2" [("title", JValue.str "t")]
      (Or.inl rfl)).1,
   (c1_default_survive (.error ()) "r1" "r2" [("title", JValue.str "t")]
      (Or.inr ⟨(), rfl⟩)).2.1,
   (c1_default_survive (.ok []) "r1" "r2" [("title", JValue.str "t")]
      (Or.inl rfl)).2.2 "title" (by decide) (by decide) (by decide)
      _ (c1_default_survive (.ok []) "r1" "r2" [("title", JValue.str "t")]
        (Or.inl rfl)).1⟩

/-! ## C2: the terminal fallback. -/

/-- When every dict insight of the batch is rejected, the loop returns an
empty list. -/
theorem validateLoop_all_rejected (search : ℕ → Except Unit (List Paper))
    (resp : ℕ → String) :
    ∀ (xs : List JValue) (i : ℕ),
    (∀ j d, xs.get? j = some (.obj d) →
        validateStep (search (i + j)) (resp (i + j)) d = .ok none) →
    (∀ j x, xs.get? j = some x → ∃ d, x = .obj d) →
    validateLoop search resp i xs = .ok [] := by
  intro xs
  induction xs with
  | nil =>
    intro i _ _
    rfl
  | cons x xs ih =>
    intro i h1 h2
    obtain ⟨d, hd⟩ := h2 0 x rfl
    subst hd
    have hstep := h1 0 d rfl
    rw [Nat.add_zero] at hstep
    simp only [validateLoop]
    rw [hstep,
      ih (i + 1)
        (fun j d' hj => by
          have hh := h1 (j + 1) d' hj
          rwa [show i + (j + 1) = i + 1 + j by omega] at hh)
        (fun j x hj => h2 (j + 1) x hj)]
    rfl

/-- `max` with the novelty key returns a dict of the batch whose key is
maximal (the first such, but any maximality property suffices here). -/
theorem pyMaxGo_spec (xs : List JValue) :
    ∀ (db : List (String × JValue)) (qb : ℚ),
    dgetD db "novelty_score" (.num 0) = .num qb →
    (∀ x ∈ xs, ∃ d q, x = .obj d
        ∧ dgetD d "novelty_score" (.num 0) = .num q) →
    ∃ dr qr, pyMaxGo (.obj db) xs = .ok (.obj dr)
      ∧ dgetD dr "novelty_score" (.num 0) = .num qr
      ∧ (dr = db ∨ JValue.obj dr ∈ xs)
      ∧ qb ≤ qr
      ∧ (∀ x ∈ xs, ∀ d q, x = .obj d →
          dgetD d "novelty_score" (.num 0) = .num q → q ≤ qr) := by
  induction xs with
  | nil =>
    intro db qb hqb _
    exact ⟨db, qb, rfl, hqb, Or.inl rfl, le_rfl, by simp⟩
  | cons y ys ih =>
    intro db qb hqb hall
    obtain ⟨dy, qy, hy, hqy⟩ := hall y (List.mem_cons_self y ys)
    subst hy
    have hred : pyMaxGo (.obj db) (.obj dy :: ys)
        = (if qb < qy then pyMaxGo (.obj dy) ys else pyMaxGo (.obj db) ys) := by
      simp only [pyMaxGo]
      rw [show noveltyKey (.obj dy) = .ok (.num qy) from by
        simp only [noveltyKey, hqy]]
      rw [show noveltyKey (.obj db) = .ok (.num qb) from by
        simp only [noveltyKey, hqb]]
      show (match pyGT (.num qy) (.num qb) with
        | some true => pyMaxGo (.obj dy) ys
        | some false => pyMaxGo (.obj db) ys
        | none => .error ()) = _
      rw [show pyGT (.num qy) (.num qb) = some (decide (qb < qy)) from rfl]
      by_cases hlt : qb < qy
      · simp [hlt]
      · simp [hlt]
    by_cases hlt : qb < qy
    · rw [if_pos hlt] at hred
      obtain ⟨dr, qr, hgo, hqr, hmem, hge, hbound⟩ :=
        ih dy qy hqy (fun x hx => hall x (List.mem_cons_of_mem _ hx))
      refine ⟨dr, qr, hred.trans hgo, hqr, ?_, ?_, ?_⟩
      · rcases hmem with h | h
        · subst h
          exact Or.inr (List.mem_cons_self _ _)
        · exact Or.inr (List.mem_cons_of_mem _ h)
      · exact le_of_lt (lt_of_lt_of_le hlt hge)
      · intro x hx d q hxd hq
        subst hxd
        rcases List.mem_cons.mp hx with h | h
        · have hdd := JValue.obj.inj h
          subst hdd
          have hqq := JValue.num.inj (hq.symm.trans hqy)
          rw [hqq]
          exact hge
        · exact hbound _ h d q rfl hq
    · rw [if_neg hlt] at hred
      obtain ⟨dr, qr, hgo, hqr, hmem, hge, hbound⟩ :=
        ih db qb hqb (fun x hx => hall x (List.mem_cons_of_mem _ hx))
      refine ⟨dr, qr, hred.trans hgo, hqr, ?_, hge, ?_⟩
      · rcases hmem with h | h
        · exact Or.inl h
        · exact Or.inr (List.mem_cons_of_mem _ h)
      · intro x hx d q hxd hq
        subst hxd
        rcases List.mem_cons.mp hx with h | h
        · have hdd := JValue.obj.inj h
          subst hdd
          have hqq := JValue.num.inj (hq.symm.trans hqy)
          rw [hqq]
          exact le_trans (le_of_not_lt hlt) hge
        · exact hbound _ h d q rfl hq

/-- C2: for a nonempty batch of dict insights with numeric novelty scores in
which every insight is rejected by the decision rule, `validate` returns
exactly one insight — an input insight of maximal `novelty_score` — with
`validated=False`, `survival_score=5.0` and the fallback evidence string; in
particular it never returns an empty list. -/
theorem c2_terminal_fallback (search : ℕ → Except Unit (List Paper))
    (resp : ℕ → String) (insights : List JValue)
    (hne : insights ≠ [])
    (hrej : ∀ j d, insights.get? j = some (.obj d) →
        validateStep (search (1 + j)) (resp (1 + j)) d = .ok none)
    (hdict : ∀ j x, insights.get? j = some x →
        ∃ d q, x = .obj d ∧ dgetD d "novelty_score" (.num 0) = .num q) :
    ∃ bd qb, JValue.obj bd ∈ insights
      ∧ dgetD bd "novelty_score" (.num 0) = .num qb
      ∧ (∀ x ∈ insights, ∀ d q, x = .obj d →
          dgetD d "novelty_score" (.num 0) = .num q → q ≤ qb)
      ∧ validate search resp insights
          = .ok [dset (dset (dset bd "validated" (.bool false))
              "survival_score" (.num 5))
              "validation_evidence" (.str
                "All insights were challenged, but this had the highest novelty score.")] := by
  have hloop := validateLoop_all_rejected search resp insights 1 hrej
    (fun j x hj => (hdict j x hj).imp (fun d hd => hd.choose_spec.1))
  match insights, hne, hrej, hdict, hloop with
  | x :: xs, _, hrej, hdict, hloop =>
    obtain ⟨dx, qx, hx, hqx⟩ := hdict 0 x rfl
    subst hx
    have hall : ∀ y ∈ xs, ∃ d q, y = .obj d
        ∧ dgetD d "novelty_score" (.num 0) = .num q := by
      intro y hy
      obtain ⟨j, hj⟩ := List.mem_iff_get?.mp hy
      exact hdict (j + 1) y hj
    obtain ⟨dr, qr, hgo, hqr, hmem, hge, hbound⟩ := pyMaxGo_spec xs dx qx hqx hall
    refine ⟨dr, qr, ?_, hqr, ?_, ?_⟩
    · rcases hmem with h | h
      · subst h
        exact List.mem_cons_self _ _
      · exact List.mem_cons_of_mem _ h
    · intro y hy d q hyd hq
      subst hyd
      rcases List.mem_cons.mp hy with h | h
      · have hdd := JValue.obj.inj h
        subst hdd
        have hqq := JValue.num.inj (hq.symm.trans hqx)
        rw [hqq]
        exact hge
      · exact hbound _ h d q rfl hq
    · simp only [validate]
      rw [hloop]
      show (match pyMaxByNovelty (JValue.obj dx :: xs) with
        | Except.error e => (Except.error e :
            Except Unit (List (List (String × JValue))))
        | Except.ok (JValue.obj bd) =>
          Except.ok [dset (dset (dset bd "validated" (JValue.bool false))
            "survival_score" (JValue.num 5))
            "validation_evidence" (JValue.str
              "All insights were challenged, but this had the highest novelty score.")]
        | Except.ok _ => Except.error ()) = _
      rw [show pyMaxByNovelty (JValue.obj dx :: xs) = pyMaxGo (.obj dx) xs
        from rfl, hgo]

/-- C2 witness: a two-insight batch, both rejected (one challenge paper and a
`gap_still_valid=false` judgement each), at concrete values. -/
theorem c2_terminal_fallback_witness :
    ∃ bd qb,
      JValue.obj bd ∈ ([JValue.obj [("novelty_score", JValue.num 3)],
          JValue.obj [("novelty_score", JValue.num 9)]] : List JValue)
      ∧ dgetD bd "novelty_score" (JValue.num 0) = JValue.num qb
      ∧ (∀ x ∈ ([JValue.obj [("novelty_score", JValue.num 3)],
            JValue.obj [("novelty_score", JValue.num 9)]] : List JValue),
          ∀ d q, x = JValue.obj d →
            dgetD d "novelty_score" (JValue.num 0) = JValue.num q → q ≤ qb)
      ∧ validate (fun _ => .ok [⟨"T", "A", [], 2024, some ""⟩])
          (fun _ => "\x7b\"gap_still_valid\": false, \"survival_score\": 2\x7d")
          [JValue.obj [("novelty_score", JValue.num 3)],
           JValue.obj [("novelty_score", JValue.num 9)]]
        = .ok [dset (dset (dset bd "validated" (JValue.bool false))
            "survival_score" (JValue.num 5))
            "validation_evidence" (JValue.str
              "All insights were challenged, but this had the highest novelty score.")] :=
  c2_terminal_fallback _ _ _
    (by simp)
    (by
      intro j d hj
      match j, hj with
      | 0, hj =>
        have hd := JValue.obj.inj (Option.some.inj hj)
        subst hd
        rfl
      | 1, hj =>
        have hd := JValue.obj.inj (Option.some.inj hj)
        subst hd
        rfl
      | n + 2, hj => exact Option.noConfusion hj)
    (by
      intro j x hj
      match j, hj with
      | 0, hj => exact ⟨_, 3, (Option.some.inj hj).symm, rfl⟩
      | 1, hj => exact ⟨_, 9, (Option.some.inj hj).symm, rfl⟩
      | n + 2, hj => exact Option.noConfusion hj)

/-! ## C3: the per-insight decision rule, and the fallback that contradicts
the claim at the batch level. -/

theorem dgetD_of_dget (d : List (String × JValue)) (k : String)
    (v dflt : JValue) (h : dget d k = some v) : dgetD d k dflt = v := by
  rw [dgetD, h]
  rfl

/-- The experiment-design block never raises when the judgement's
`experiment_design_evaluation` is a dict or falsy. -/
theorem applyExpEval_ok (d valid : List (String × JValue))
    (hexp : (∃ em, dgetD valid "experiment_design_evaluation" (.obj [])
          = JValue.obj em)
        ∨ pyTruthy (dgetD valid "experiment_design_evaluation" (.obj []))
            = false) :
    ∃ d2, applyExpEval d valid = .ok d2 := by
  unfold applyExpEval
  rcases hexp with ⟨em, hem⟩ | hf
  · rw [hem]
    by_cases ht : pyTruthy (JValue.obj em) = true
    · rw [if_pos ht]
      exact ⟨_, rfl⟩
    · rw [if_neg ht]
      exact ⟨_, rfl⟩
  · rw [if_neg (by rw [hf]; simp)]
    exact ⟨_, rfl⟩

/-- The refinement block never raises when refinement, observation and gap
are strings. -/
theorem applyRefinement_ok (d : List (String × JValue)) (so sg sr : String) :
    ∃ d', applyRefinement d (JValue.str so) (JValue.str sg) (JValue.str sr)
        = .ok d' := by
  unfold applyRefinement
  by_cases h1 : pyTruthy (JValue.str sr) = true
  · rw [if_pos h1]
    rw [show pyStripAttr (JValue.str sr) = Except.ok (pyStrip sr) from rfl]
    simp only []
    by_cases h2 : pyStrip sr ≠ ""
    · rw [if_pos h2]
      by_cases h3 : pyTruthy (JValue.str so) = true
      · rw [if_pos h3, if_pos h3]
        rw [show (pyStripAttr (JValue.str so)).map
            (fun os => decide (pyStrip sr ≠ os)) = Except.ok
              (decide (pyStrip sr ≠ pyStrip so)) from rfl]
        rw [show (pyStripAttr (JValue.str sg)).map
            (fun gs => decide (pyStrip sr ≠ gs)) = Except.ok
              (decide (pyStrip sr ≠ pyStrip sg)) from rfl]
        exact ⟨_, rfl⟩
      · rw [if_neg h3, if_neg h3]
        exact ⟨_, rfl⟩
    · rw [if_neg h2]
      exact ⟨_, rfl⟩
  · rw [if_neg h1]
    exact ⟨_, rfl⟩

/-- The survive branch never raises under well-typed fields. -/
theorem surviveBranch_ok (d valid : List (String × JValue))
    (obs gap : JValue) (ss ev : JValue) (so sg sr : String)
    (hobs : obs = JValue.str so)
    (hgap : gap = JValue.str sg)
    (hsr : dgetD valid "refinement" (.str "") = JValue.str sr)
    (hexp : (∃ em, dgetD valid "experiment_design_evaluation" (.obj [])
          = JValue.obj em)
        ∨ pyTruthy (dgetD valid "experiment_design_evaluation" (.obj []))
            = false) :
    ∃ d', surviveBranch d valid obs gap ss ev = .ok d' := by
  subst hobs
  subst hgap
  unfold surviveBranch
  obtain ⟨d2, hd2⟩ := applyExpEval_ok
    (applyOptFields
      (dset (dset (dset (dset d "validated" (.bool true))
        "survival_score" ss) "validation_evidence" ev)
        "validation_dialogue" ev) valid) valid hexp
  rw [hd2, hsr]
  exact applyRefinement_ok d2 so sg sr

/-- With at least one challenge paper and a nonempty extracted judgement
dict, the step reduces to the survive/reject decision. -/
theorem validateStep_decision (papers : List Paper) (resp : String)
    (d m : List (String × JValue)) (g : JValue) (q : ℚ)
    (hpap : papers ≠ [])
    (hjud : extract_json resp = some (.obj m))
    (hm : m ≠ [])
    (hg : dget m "gap_still_valid" = some g)
    (hq : dget m "survival_score" = some (.num q)) :
    validateStep (.ok papers) resp d
      = (if pyTruthy g && decide (6 ≤ q) then
          match surviveBranch d m (dgetD d "observation" (.str ""))
              (dgetD d "gap" (.str "")) (JValue.num q)
              (dgetD m "evidence"
                (.str "Gap validated against recent literature.")) with
          | .error e => .error e
          | .ok d' => .ok (some d')
        else .ok none) := by
  match papers, hpap with
  | p :: ps, _ =>
    match m, hm, hg, hq with
    | kv :: rest, _, hg, hq =>
      unfold validateStep
      simp only [List.isEmpty_cons, Bool.false_eq_true, if_false]
      rw [hjud]
      simp only [normalizeValidation]
      rw [dgetD_of_dget _ _ _ _ hq]
      rw [show pyGE (JValue.num q) 6 = some (decide (6 ≤ q)) from rfl]
      simp only []
      rw [dgetD_of_dget _ _ _ _ hg]

/-- C3 (amended): with at least one challenge paper and a successfully
extracted nonempty judgement dict carrying `gap_still_valid` and a numeric
`survival_score` (and string-typed refinement/observation/gap fields), the
insight survives the PER-INSIGHT decision iff `gap_still_valid` is truthy and
the score is at least 6, and is otherwise dropped by the loop body.  The
claim fails at the batch level: when every insight is rejected, the terminal
fallback returns a rejected insight with `validated=False` (see the
counterexample). -/
theorem c3_survival_rule (papers : List Paper) (resp : String)
    (d m : List (String × JValue)) (g : JValue) (q : ℚ)
    (hpap : papers ≠ [])
    (hjud : extract_json resp = some (.obj m))
    (hm : m ≠ [])
    (hg : dget m "gap_still_valid" = some g)
    (hq : dget m "survival_score" = some (.num q))
    (hobs : ∃ s, dgetD d "observation" (.str "") = JValue.str s)
    (hgap : ∃ s, dgetD d "gap" (.str "") = JValue.str s)
    (href : ∃ s, dgetD m "refinement" (.str "") = JValue.str s)
    (hexp : (∃ em, dgetD m "experiment_design_evaluation" (.obj [])
          = JValue.obj em)
        ∨ pyTruthy (dgetD m "experiment_design_evaluation" (.obj []))
            = false) :
    (∃ d', validateStep (.ok papers) resp d = .ok (some d'))
      ↔ (pyTruthy g = true ∧ 6 ≤ q) := by
  rw [validateStep_decision papers resp d m g q hpap hjud hm hg hq]
  by_cases hc : (pyTruthy g && decide (6 ≤ q)) = true
  · rw [if_pos hc]
    have hb : pyTruthy g = true ∧ decide (6 ≤ q) = true := by
      rw [Bool.and_eq_true] at hc
      exact hc
    constructor
    · intro _
      exact ⟨hb.1, of_decide_eq_true hb.2⟩
    · intro _
      obtain ⟨so, hso⟩ := hobs
      obtain ⟨sg2, hsg⟩ := hgap
      obtain ⟨sr, hsr⟩ := href
      obtain ⟨d', hd'⟩ := surviveBranch_ok d m
        (dgetD d "observation" (.str "")) (dgetD d "gap" (.str ""))
        (JValue.num q)
        (dgetD m "evidence" (.str "Gap validated against recent literature."))
        so sg2 sr hso hsg hsr hexp
      rw [hd']
      exact ⟨d', rfl⟩
  · rw [if_neg hc]
    constructor
    · intro h
      obtain ⟨d', hd'⟩ := h
      exact Option.noConfusion (Except.ok.inj hd')
    · rintro ⟨hgt, hq6⟩
      refine absurd ?_ hc
      rw [hgt, decide_eq_true hq6]
      rfl

/-- C3 witness: the decision rule at concrete inputs, once rejecting
(`gap_still_valid=false`, score 2) and once surviving (`true`, score 8). -/
theorem c3_survival_rule_witness :
    ((∃ d', validateStep (.ok [⟨"T", "A", [], 2024, some ""⟩])
          "\x7b\"gap_still_valid\": false, \"survival_score\": 2\x7d"
          [("gap", JValue.str "g")] = .ok (some d'))
        ↔ (pyTruthy (JValue.bool false) = true ∧ 6 ≤ (2 : ℚ)))
    ∧ ((∃ d', validateStep (.ok [⟨"T", "A", [], 2024, some ""⟩])
          "\x7b\"gap_still_valid\": true, \"survival_score\": 8\x7d"
          [("gap", JValue.str "g")] = .ok (some d'))
        ↔ (pyTruthy (JValue.bool true) = true ∧ 6 ≤ (8 : ℚ))) :=
  ⟨c3_survival_rule _ _ _
      [("gap_still_valid", JValue.bool false),
       ("survival_score", JValue.num 2)] _ _
      (by simp) rfl (by simp) rfl rfl
      ⟨"", rfl⟩ ⟨"g", rfl⟩ ⟨"", rfl⟩ (Or.inr rfl),
   c3_survival_rule _ _ _
      [("gap_still_valid", JValue.bool true),
       ("survival_score", JValue.num 8)] _ _
      (by simp) rfl (by simp) rfl rfl
      ⟨"", rfl⟩ ⟨"g", rfl⟩ ⟨"", rfl⟩ (Or.inr rfl)⟩

/-- C3 counterexample: one insight, one challenge paper, judgement
`gap_still_valid=false` — the claim says a non-surviving insight is dropped
entirely and never retained with `validated=False`, yet `validate` returns it
with `validated=False` and `survival_score=5.0` through the terminal
fallback. -/
theorem c3_rejected_insight_counterexample :
    validate (fun _ => .ok [⟨"T", "A", [], 2024, some ""⟩])
        (fun _ => "\x7b\"gap_still_valid\": false, \"survival_score\": 2\x7d")
        [.obj [("novelty_score", JValue.num 7)]]
      = .ok [[("novelty_score", JValue.num 7),
          ("validated", JValue.bool false),
          ("survival_score", JValue.num 5),
          ("validation_evidence", JValue.str
            "All insights were challenged, but this had the highest novelty score.")]] := by
  rfl

/-! ## C8: `ResearchAgent.generate_insights` (research.py lines 1174-1365)
conversation-log structure.  The four stage computations — each agent call
together with the construction of that entry's stage-derived payload fields —
are oracle parameters that may raise; the literal `turn`, `agent`,
`responding_to` and `message_type` fields are the source's, from the four
`conversation_log.append` calls. -/

/-- One conversation-log entry: the four routing fields the claim speaks
about, plus the stage-derived payload. -/
structure LogEntry where
  turn : ℕ
  agent : String
  responding_to : List String
  message_type : String
  payload : List (String × JValue)

/-- `generate_insights`' effect on `self.conversation_log`: the log is
cleared at the start (line 1192: the pre-call log is discarded), then each of
the four stages appends exactly one entry with the literal routing fields of
lines 1241-1248, 1284-1291, 1313-1320 and 1340-1347; a raising stage aborts
the run.  Returns the final log of a successful run. -/
def generate_insights_log (log0 : List LogEntry)
    (stage1 stage2 stage3 stage4 : Except Unit (List (String × JValue))) :
    Except Unit (List LogEntry) :=
  let _cleared := (log0, ([] : List LogEntry))
  match stage1 with
  | .error e => .error e
  | .ok p1 =>
    match stage2 with
    | .error e => .error e
    | .ok p2 =>
      match stage3 with
      | .error e => .error e
      | .ok p3 =>
        match stage4 with
        | .error e => .error e
        | .ok p4 =>
          .ok (([] ++ [⟨1, "Analyzer", [], "observation", p1⟩]
            ++ [⟨2, "Skeptic", ["Analyzer"], "challenge", p2⟩]
            ++ [⟨3, "Synthesizer", ["Analyzer", "Skeptic"], "synthesis", p3⟩])
            ++ [⟨4, "Validator", ["Synthesizer"], "validation", p4⟩])

/-- C8: for every successful run, the conversation log is independent of the
pre-call log (it is reset at the start) and holds exactly 4 entries whose
`turn` values are `[1,2,3,4]` and whose agents are Analyzer, Skeptic,
Synthesizer, Validator in that order, each entry's `responding_to` naming the
agents whose output fed that stage. -/
theorem c8_conversation_log (log0 log0' : List LogEntry)
    (stage1 stage2 stage3 stage4 : Except Unit (List (String × JValue)))
    (p1 p2 p3 p4 : List (String × JValue))
    (h1 : stage1 = .ok p1) (h2 : stage2 = .ok p2)
    (h3 : stage3 = .ok p3) (h4 : stage4 = .ok p4) :
    ∃ log, generate_insights_log log0 stage1 stage2 stage3 stage4 = .ok log
      ∧ generate_insights_log log0' stage1 stage2 stage3 stage4 = .ok log
      ∧ log.length = 4
      ∧ log.map LogEntry.turn = [1, 2, 3, 4]
      ∧ log.map LogEntry.agent
          = ["Analyzer", "Skeptic", "Synthesizer", "Validator"]
      ∧ log.map LogEntry.responding_to
          = [[], ["Analyzer"], ["Analyzer", "Skeptic"], ["Synthesizer"]]
      ∧ log.map LogEntry.message_type
          = ["observation", "challenge", "synthesis", "validation"] := by
  subst h1
  subst h2
  subst h3
  subst h4
  exact ⟨_, rfl, rfl, rfl, rfl, rfl, rfl, rfl⟩

/-- C8 witness: a successful run at concrete stage payloads, with a nonempty
pre-call log on one side and an empty one on the other. -/
theorem c8_conversation_log_witness :
    ∃ log, generate_insights_log [⟨9, "X", ["Y"], "z", []⟩]
        (.ok []) (.ok []) (.ok []) (.ok []) = .ok log
      ∧ generate_insights_log [] (.ok []) (.ok []) (.ok []) (.ok [])
          = .ok log
      ∧ log.length = 4
      ∧ log.map LogEntry.turn = [1, 2, 3, 4]
      ∧ log.map LogEntry.agent
          = ["Analyzer", "Skeptic", "Synthesizer", "Validator"]
      ∧ log.map LogEntry.responding_to
          = [[], ["Analyzer"], ["Analyzer", "Skeptic"], ["Synthesizer"]]
      ∧ log.map LogEntry.message_type
          = ["observation", "challenge", "synthesis", "validation"] :=
  c8_conversation_log [⟨9, "X", ["Y"], "z", []⟩] []
    (.ok []) (.ok []) (.ok []) (.ok []) [] [] [] [] rfl rfl rfl rfl

end AiResearcher
